import Mathlib

/-!
Shallow embedding of `src/my_unordered_map.hpp` (class `MyUnorderedMap`).

The container keeps one singly linked list of nodes (`__bucket` objects)
threaded from the before-first sentinel `__start` to the heap-allocated
past-last sentinel `__end`, plus an array of bucket heads (`Buckets* array`)
whose slot `h` is null or points to the first node of bucket `h`'s
contiguous run inside the shared list.

Embedding choices:
* A node (`__bucket`) is a record of an allocation identity `id` (standing
  for the node's address), the payload `key`/`val` (`item.first`/`item.second`)
  and the cached constrained `hash`.  The `next` pointers of the source are
  represented by adjacency in the list `nodes`, which lists the chain from
  `__start.next` up to (excluding) `__end`; the past-last sentinel is
  represented by its identity `endId` alone, since it never carries a payload
  that the operations read.  A fresh-allocation counter `fresh` models the
  allocator handing out addresses never used before.
* `array == nullptr` is `Option.none`; a bucket slot `Buckets.next == nullptr`
  is `Option.none`, otherwise the id of the node it points to.
* `size_t` values are `Nat`; the only place the source relies on `size_t`
  wrap-around is `size - 1` inside `__constrain_hash` when `size == 0`, which
  `size_t_pred` models explicitly (sizes are below `2 ^ 64` in C++).
* `float __max_load_factor` is modelled as `ℚ`; the comparisons and the
  `ceil` of the source are exact over `ℚ`, and are computed inside the
  operations by cross-multiplied integer arithmetic on `mlf.num`/`mlf.den`
  (provably the same comparisons; see `mulMlf_lt_iff`).
* `Hash` is an arbitrary function `K → Nat`; `Cmp` is the default
  `std::equal_to`, i.e. decidable equality on `K`.
* Out-of-bounds reads of the bucket array (possible in the source only in
  states the public interface cannot produce, e.g. after `rehash(0)`) are
  modelled as reading a null slot, and out-of-bounds writes as no-ops.
-/

namespace MUM

/-- A `__bucket` node: allocation identity, payload and cached hash. -/
structure Node (K V : Type) where
  id : Nat
  key : K
  val : V
  hash : Nat
deriving DecidableEq

/-- The state of a `MyUnorderedMap`: `__size` (bucket count), `__count`
(element count), `__max_load_factor`, the bucket-head array, the shared
traversal list from `__start.next` to `__end` exclusive, the identity of the
past-last sentinel `__end`, and the allocator's fresh-address counter. -/
structure Mumap (K V : Type) where
  size : Nat
  count : Nat
  mlf : ℚ
  array : Option (List (Option Nat))
  nodes : List (Node K V)
  endId : Nat
  fresh : Nat
deriving DecidableEq

/-- The value of the `size_t` expression `n - 1` (wraps at zero). -/
def size_t_pred (n : Nat) : Nat :=
  if n = 0 then 2 ^ 64 - 1 else n - 1

/-- `__constrain_hash(hash, size)` from the source. -/
def __constrain_hash (h n : Nat) : Nat :=
  if n &&& size_t_pred n = 0 then h &&& size_t_pred n
  else if h < n then h else h % n

/-- `__is_hash_power2(size)` from the source. -/
def __is_hash_power2 (n : Nat) : Bool :=
  decide (2 < n) && decide (n &&& (n - 1) = 0)

/-- Read slot `i` of the bucket-head array (out of bounds reads null). -/
def getSlot : List (Option Nat) → Nat → Option Nat
  | [], _ => none
  | x :: _, 0 => x
  | _ :: xs, n + 1 => getSlot xs n

/-- Write slot `i` of the bucket-head array (out of bounds is a no-op). -/
def setSlot : List (Option Nat) → Nat → Option Nat → List (Option Nat)
  | [], _, _ => []
  | _ :: xs, 0, v => v :: xs
  | x :: xs, n + 1, v => x :: setSlot xs n v

variable {K V : Type} [DecidableEq K]

/-- The value of `array[h].next` (null when `array == nullptr`). -/
def slot (st : Mumap K V) (h : Nat) : Option Nat :=
  match st.array with
  | none => none
  | some a => getSlot a h

/-- The value of `__start.next`: the first node of the shared list, or the
past-last sentinel when the list is empty. -/
def startNext (st : Mumap K V) : Nat :=
  match st.nodes with
  | [] => st.endId
  | n :: _ => n.id

/-- The suffix of the shared list beginning at the node whose address is
`i` (empty if no such node): dereferencing a node pointer. -/
def suffixFrom : List (Node K V) → Nat → List (Node K V)
  | [], _ => []
  | n :: rest, i => if n.id = i then n :: rest else suffixFrom rest i

/-- The loop `for (g = start; g != __end && h == g->hash; g = g->next)
{ if (cmp(g->item.first, key)) return g; }` shared by `__find` and `erase`,
acting on the suffix of the list that starts at `g`. -/
def scanRun (h : Nat) (key : K) : List (Node K V) → Option (Node K V)
  | [] => none
  | g :: rest =>
    if g.hash = h then (if g.key = key then some g else scanRun h key rest)
    else none

/-- The duplicate-scan-and-walk of `__bucket_insert` on a non-empty bucket:
starting at run head `g` with the rest of the shared list behind it, either
report a duplicate key (`none`) or return the id of the node after which the
new node is spliced. -/
def runSplice (h : Nat) (key : K) (g : Node K V) :
    List (Node K V) → Option Nat
  | [] => if g.key = key then none else some g.id
  | n :: rest =>
    if n.hash = h then
      (if g.key = key then none else runSplice h key n rest)
    else if g.key = key then none else some g.id

/-- Splice node `n` into the shared list immediately after the node whose
address is `gId` (`g->next = new node(pair, h, g->next)`). -/
def spliceAfter (gId : Nat) (nw : Node K V) : List (Node K V) → List (Node K V)
  | [] => []
  | n :: rest =>
    if n.id = gId then n :: nw :: rest else n :: spliceAfter gId nw rest

/-- The node `g->next` points at (`none` when `g->next == __end`). -/
def succOf (gId : Nat) : List (Node K V) → Option (Node K V)
  | [] => none
  | n :: rest => if n.id = gId then rest.head? else succOf gId rest

/-- The list surgery of `erase`'s match branch: `*g = std::move(*g->next)`
followed by freeing the old `g->next`.  When `g` is the last node
(`g->next == __end`) the node `g` itself leaves the list (it becomes the new
sentinel); otherwise `g` assumes its successor's payload and cached hash and
the successor's cell is freed. -/
def eraseStep (gId : Nat) : List (Node K V) → List (Node K V)
  | [] => []
  | n :: rest =>
    if n.id = gId then
      match rest with
      | [] => []
      | s :: post => ⟨gId, s.key, s.val, s.hash⟩ :: post
    else n :: eraseStep gId rest

/-- The default-constructed `MyUnorderedMap()` (also the state of a
moved-from container, whose fields are reset and whose sentinel is freshly
allocated; allocation identities restart since they can never be compared
with the previous object's). -/
def mumapNew : Mumap K V :=
  { size := 0, count := 0, mlf := 1, array := none, nodes := [], endId := 0,
    fresh := 1 }

variable (hash : K → Nat)

/-- `__bucket_insert(pair, h)` from the source: returns the new node
(`nullptr` is `none` on a duplicate key) together with the updated state.
The dereference of `array[h]` when `array == nullptr`, and the walk from a
dangling head pointer, cannot occur in states the source reaches; they are
modelled as a failed insertion. -/
def __bucket_insert (st : Mumap K V) (pair : K × V) (h : Nat) :
    Option (Node K V) × Mumap K V :=
  match st.array with
  | none => (none, st)
  | some a =>
    match getSlot a h with
    | none =>
      let nw : Node K V := ⟨st.fresh, pair.1, pair.2, h⟩
      (some nw,
        { st with array := some (setSlot a h (some st.fresh)),
                  nodes := nw :: st.nodes, fresh := st.fresh + 1 })
    | some hd =>
      match suffixFrom st.nodes hd with
      | [] => (none, st)
      | g :: rest =>
        match runSplice h pair.1 g rest with
        | none => (none, st)
        | some gId =>
          let nw : Node K V := ⟨st.fresh, pair.1, pair.2, h⟩
          (some nw,
            { st with nodes := spliceAfter gId nw st.nodes,
                      fresh := st.fresh + 1 })

/-- One iteration of the relink loop of `__rehash`: node `i` (with its hash
recomputed against the new bucket count `n`) becomes the head of its bucket
and of the new list if the bucket is empty, and otherwise is spliced in
immediately after the bucket's existing head. -/
def rehashLoop (n : Nat) :
    List (Node K V) → List (Node K V) × List (Option Nat) →
    List (Node K V) × List (Option Nat)
  | [], acc => acc
  | i :: rest, (ns, a) =>
    let h := __constrain_hash (hash i.key) n
    match getSlot a h with
    | none =>
      rehashLoop n rest (⟨i.id, i.key, i.val, h⟩ :: ns, setSlot a h (some i.id))
    | some hd =>
      rehashLoop n rest (spliceAfter hd ⟨i.id, i.key, i.val, h⟩ ns, a)

/-- `__rehash(new_size)` from the source: a fresh all-null bucket array of
`new_size` slots replaces the old one, the shared list is reset to empty and
every node of the captured old list is relinked in order. -/
def __rehash (st : Mumap K V) (n : Nat) : Mumap K V :=
  let p := rehashLoop hash n st.nodes ([], List.replicate n none)
  { st with size := n, array := some p.2, nodes := p.1 }

/-- The comparison `a * mlf < b` of the source (`a`, `b` are `size_t`
values, `mlf` the stored load factor), decided exactly by cross-multiplied
integer arithmetic (`mlf.den` is positive). -/
def mulMlfLt (a : Nat) (mlf : ℚ) (b : Nat) : Bool :=
  decide ((a : Int) * mlf.num < (b : Int) * (mlf.den : Int))

/-- The integer `⌈(a : ℚ) / m⌉`, computed exactly by cross multiplication;
models the source's `ceil(float(a) / mlf)` (for `m = 0` the source divides
by zero; the model returns `0`). -/
def ratCeilDiv (a : Int) (m : ℚ) : Int :=
  -(-(a * (m.den : Int)) / m.num)

/-- Public `rehash(new_size)`: throws `std::out_of_range` (the `false`
outcome, with the container untouched) when
`new_size * __max_load_factor < __count`. -/
def rehash (st : Mumap K V) (n : Nat) : Bool × Mumap K V :=
  if mulMlfLt n st.mlf st.count then (false, st)
  else (true, __rehash hash st n)

/-- The grown bucket count requested by `insert` when the load-factor check
fires: `max(2*count + !__is_hash_power2(count), ceil((count+1)/mlf))`. -/
def growSize (count : Nat) (mlf : ℚ) : Nat :=
  max (2 * count + (if __is_hash_power2 count then 0 else 1))
    (Int.toNat (ratCeilDiv ((count : Int) + 1) mlf))

/-- Public `insert(pair)`: grow-and-rehash when
`__size * __max_load_factor < __count + 1`, then `__bucket_insert`; returns
the iterator (the new node on success, `__end` i.e. `none` on a duplicate),
the `inserted` flag, and the new state. -/
def insert (st : Mumap K V) (pair : K × V) :
    Option (Node K V) × Bool × Mumap K V :=
  let st1 :=
    if mulMlfLt st.size st.mlf (st.count + 1) then
      __rehash hash st (growSize st.count st.mlf)
    else st
  let h := __constrain_hash (hash pair.1) st1.size
  match __bucket_insert st1 pair h with
  | (some nw, st2) => (some nw, true, { st2 with count := st2.count + 1 })
  | (none, st2) => (none, false, st2)

/-- `__find(key)` from the source: run head lookup followed by the
contiguous-run scan; `none` is the past-last sentinel (`not found`). -/
def __find (st : Mumap K V) (key : K) : Option (Node K V) :=
  let h := __constrain_hash (hash key) st.size
  match slot st h with
  | none => none
  | some hd => scanRun h key (suffixFrom st.nodes hd)

/-- Public `find(key)`: returns `end()` when `array == nullptr`, otherwise
`__find`. -/
def find (st : Mumap K V) (key : K) : Option (Node K V) :=
  match st.array with
  | none => none
  | some _ => __find hash st key

/-- The observable outcome of `find`: the mapped value, or `none` for the
end marker. -/
def lookup (st : Mumap K V) (key : K) : Option V :=
  (find hash st key).map Node.val

/-- Public `erase(key)` from the source, including both bucket-head fix-ups
and the sentinel-swap deletion. -/
def erase (st : Mumap K V) (key : K) : Bool × Mumap K V :=
  match st.array with
  | none => (false, st)
  | some a =>
    let h := __constrain_hash (hash key) st.size
    match getSlot a h with
    | none => (false, st)
    | some hd =>
      match scanRun h key (suffixFrom st.nodes hd) with
      | none => (false, st)
      | some g =>
        let s := succOf g.id st.nodes
        let a1 :=
          if hd = g.id then
            match s with
            | none => setSlot a h none
            | some sn =>
              if sn.hash = h then setSlot a h (some sn.id)
              else setSlot a h none
          else a
        match s with
        | some sn =>
          let a2 :=
            if getSlot a1 sn.hash = some sn.id then
              setSlot a1 sn.hash (some g.id)
            else a1
          (true,
            { st with array := some a2, nodes := eraseStep g.id st.nodes,
                      count := st.count - 1 })
        | none =>
          (true,
            { st with array := some a1, nodes := eraseStep g.id st.nodes,
                      endId := g.id, count := st.count - 1 })

/-- `clear()` from the source: every node freed, the bucket array freed,
`__size = __count = 0`, `__start.next = __end`; the sentinel and the maximum
load factor survive. -/
def clear (st : Mumap K V) : Mumap K V :=
  { st with size := 0, count := 0, array := none, nodes := [] }

/-- `empty()` from the source: `__start.next == __end`. -/
def empty (st : Mumap K V) : Bool :=
  startNext st == st.endId

/-- `max_load_factor(f)` from the source: stores `fabs(f)`. -/
def maxLoadFactorSet (st : Mumap K V) (f : ℚ) : Mumap K V :=
  { st with mlf := |f| }

/-- The copy constructor from the source: `__size`, `__count` and the load
factor are copied, a null-initialized bucket array of the source's size is
allocated when that size is positive, and every node of the source list is
re-inserted (in list order, with its cached hash) via `__bucket_insert` into
the fresh object, whose allocation identities restart. -/
def copyCtor (st : Mumap K V) : Mumap K V :=
  let base : Mumap K V :=
    { size := st.size, count := st.count, mlf := st.mlf,
      array := if 0 < st.size then some (List.replicate st.size none) else none,
      nodes := [], endId := 0, fresh := 1 }
  st.nodes.foldl (fun acc g => (__bucket_insert acc (g.key, g.val) g.hash).2)
    base

/-- The key-value pairs currently stored, in shared-list order. -/
def items (st : Mumap K V) : List (K × V) :=
  st.nodes.map (fun n => (n.key, n.val))

/-- States reachable through the public interface, together with a flag
recording whether the object has ever received an `insert` call during its
lifetime.  `insert` covers `emplace`, `operator[]` and the initializer-list
forms, which all forward to it; `copy` covers copy construction and copy
assignment; `moveFrom` is the source object of a move (reset to a fresh
empty container, its lifetime flag untouched), while the target of a move
holds a state already covered by its premise. -/
inductive ReachableI : Mumap K V → Bool → Prop where
  | init : ReachableI mumapNew false
  | insert (st : Mumap K V) (f : Bool) (p : K × V) :
      ReachableI st f → ReachableI (MUM.insert hash st p).2.2 true
  | erase (st : Mumap K V) (f : Bool) (k : K) :
      ReachableI st f → ReachableI (MUM.erase hash st k).2 f
  | rehash (st : Mumap K V) (f : Bool) (n : Nat) :
      ReachableI st f → ReachableI (MUM.rehash hash st n).2 f
  | clear (st : Mumap K V) (f : Bool) :
      ReachableI st f → ReachableI (MUM.clear st) f
  | mlfSet (st : Mumap K V) (f : Bool) (q : ℚ) :
      ReachableI st f → ReachableI (maxLoadFactorSet st q) f
  | copy (st : Mumap K V) (f : Bool) :
      ReachableI st f → ReachableI (copyCtor st) false
  | moveFrom (st : Mumap K V) (f : Bool) :
      ReachableI st f → ReachableI mumapNew f

/-- States reachable through the public interface. -/
def Reachable (st : Mumap K V) : Prop :=
  ∃ f, ReachableI hash st f

/-! ### Arithmetic facts about the hash-constraining and load-factor code -/

/-- A power of two shares no bits with its predecessor. -/
lemma two_pow_and_pred (k : Nat) : 2 ^ k &&& (2 ^ k - 1) = 0 := by
  rw [Nat.and_pow_two_sub_one_eq_mod, Nat.mod_self]

/-- Conversely, a positive number sharing no bits with its predecessor is a
power of two. -/
lemma pow2_of_and_pred : ∀ n, 0 < n → n &&& (n - 1) = 0 → ∃ k, n = 2 ^ k := by
  intro n
  induction n using Nat.strong_induction_on with
  | _ n ih =>
    intro hpos h
    rcases Nat.even_or_odd n with he | ho
    · obtain ⟨m, hm⟩ := he
      have hmpos : 0 < m := by omega
      have hmlt : m < n := by omega
      have hstep : m &&& (m - 1) = 0 := by
        apply Nat.eq_of_testBit_eq
        intro i
        rw [Nat.zero_testBit, Nat.testBit_and]
        have h1 : m.testBit i = n.testBit (i + 1) := by
          rw [Nat.testBit_succ]
          congr 1
          omega
        have h2 : (m - 1).testBit i = (n - 1).testBit (i + 1) := by
          rw [Nat.testBit_succ]
          congr 1
          omega
        rw [h1, h2, ← Nat.testBit_and, h, Nat.zero_testBit]
      obtain ⟨k, hk⟩ := ih m hmlt hmpos hstep
      refine ⟨k + 1, ?_⟩
      rw [Nat.pow_succ]
      omega
    · rcases Nat.lt_or_ge n 2 with h1 | h2
      · exact ⟨0, by omega⟩
      · obtain ⟨m, hm⟩ := ho
        have hmpos : 0 < m := by omega
        have hm0 : m = 0 := by
          apply Nat.eq_of_testBit_eq
          intro i
          rw [Nat.zero_testBit]
          have hb1 : m.testBit i = n.testBit (i + 1) := by
            rw [Nat.testBit_succ]
            congr 1
            omega
          have hb2 : m.testBit i = (n - 1).testBit (i + 1) := by
            rw [Nat.testBit_succ]
            congr 1
            omega
          have hz := congrArg (fun x => x.testBit (i + 1)) h
          simp only [Nat.testBit_and, Nat.zero_testBit] at hz
          rw [← hb1, ← hb2] at hz
          simpa using hz
        omega

/-- The boolean cross-multiplied comparison agrees with the exact rational
comparison `a * mlf < b` that the source performs in `float`. -/
lemma mulMlfLt_iff (a b : Nat) (m : ℚ) :
    mulMlfLt a m b = true ↔ (a : ℚ) * m < (b : ℚ) := by
  have hd : (0 : ℚ) < (m.den : ℚ) := by exact_mod_cast m.pos
  have key : (a : ℚ) * m < (b : ℚ) ↔
      (a : ℚ) * (m.num : ℚ) < (b : ℚ) * (m.den : ℚ) := by
    conv_lhs => rw [← Rat.num_div_den m]
    rw [← mul_div_assoc, div_lt_iff₀ hd]
  unfold mulMlfLt
  simp only [decide_eq_true_eq]
  rw [key]
  constructor
  · intro hlt
    exact_mod_cast hlt
  · intro hlt
    exact_mod_cast hlt

/-- Negation of `mulMlfLt_iff`. -/
lemma mulMlfLt_eq_false_iff (a b : Nat) (m : ℚ) :
    mulMlfLt a m b = false ↔ (b : ℚ) ≤ (a : ℚ) * m := by
  rw [← not_lt, ← mulMlfLt_iff a b m]
  cases hb : mulMlfLt a m b <;> simp

/-- The ceil computed by `growSize` brings the load factor bound back:
`a ≤ ⌈a / m⌉ * m` for positive `m`. -/
lemma le_ratCeilDiv_mul (a : Nat) (m : ℚ) (hm : 0 < m) (ha : 0 < a) :
    (a : ℚ) ≤ (((ratCeilDiv (a : Int) m).toNat : Nat) : ℚ) * m := by
  have hp : 0 < m.num := Rat.num_pos.mpr hm
  have hq0 : 0 < m.den := m.pos
  have hq : (0 : Int) < (m.den : Int) := by exact_mod_cast hq0
  have hd : (0 : ℚ) < (m.den : ℚ) := by exact_mod_cast hq0
  have hkey : (a : Int) * (m.den : Int) ≤ ratCeilDiv (a : Int) m * m.num := by
    have hdm := Int.ediv_add_emod (-((a : Int) * (m.den : Int))) m.num
    have hr := Int.emod_nonneg (-((a : Int) * (m.den : Int))) (ne_of_gt hp)
    unfold ratCeilDiv
    nlinarith [hdm, hr]
  have hrc : 0 < ratCeilDiv (a : Int) m := by
    have hA : (0 : Int) < (a : Int) * (m.den : Int) := by positivity
    nlinarith [hkey, hA, hp]
  have htn : ((ratCeilDiv (a : Int) m).toNat : Int) = ratCeilDiv (a : Int) m :=
    Int.toNat_of_nonneg (le_of_lt hrc)
  have hkeyQ : (a : ℚ) * (m.den : ℚ) ≤
      (((ratCeilDiv (a : Int) m).toNat : Nat) : ℚ) * (m.num : ℚ) := by
    have : ((a : Int) * (m.den : Int) : ℚ) ≤
        ((ratCeilDiv (a : Int) m * m.num : Int) : ℚ) := by
      exact_mod_cast hkey
    rw [← htn] at this
    push_cast at this ⊢
    convert this using 2
  have hmd : m * (m.den : ℚ) = (m.num : ℚ) := by
    nth_rewrite 1 [← Rat.num_div_den m]
    exact div_mul_cancel₀ _ (ne_of_gt hd)
  rw [← mul_le_mul_right hd, mul_assoc, hmd]
  exact hkeyQ

/-- The grown bucket count restores the load-factor bound for one more
element: `count + 1 ≤ growSize count m * m` whenever `m > 0`. -/
lemma growSize_load (c : Nat) (m : ℚ) (hm : 0 < m) :
    ((c : ℚ) + 1) ≤ (growSize c m : ℚ) * m := by
  have h1 := le_ratCeilDiv_mul (c + 1) m hm (Nat.succ_pos c)
  have h2 : (ratCeilDiv ((c + 1 : Nat) : Int) m).toNat ≤ growSize c m := by
    unfold growSize
    have : ((c + 1 : Nat) : Int) = (c : Int) + 1 := by push_cast; ring
    rw [this]
    exact le_max_right _ _
  have h3 : (((ratCeilDiv ((c + 1 : Nat) : Int) m).toNat : Nat) : ℚ) ≤
      ((growSize c m : Nat) : ℚ) := by exact_mod_cast h2
  calc ((c : ℚ) + 1) = (((c + 1 : Nat) : Nat) : ℚ) := by push_cast; ring
    _ ≤ (((ratCeilDiv ((c + 1 : Nat) : Int) m).toNat : Nat) : ℚ) * m := h1
    _ ≤ ((growSize c m : Nat) : ℚ) * m :=
        mul_le_mul_of_nonneg_right h3 (le_of_lt hm)

/-! ### Structural facts: which fields each operation can touch -/

/-- `__bucket_insert` never changes the bucket count, the element count, the
load factor, the sentinel or the array presence shape beyond its own slot
write. -/
lemma __bucket_insert_fields (st : Mumap K V) (p : K × V) (h : Nat) :
    (__bucket_insert st p h).2.count = st.count ∧
    (__bucket_insert st p h).2.size = st.size ∧
    (__bucket_insert st p h).2.mlf = st.mlf ∧
    (__bucket_insert st p h).2.endId = st.endId := by
  unfold __bucket_insert
  rcases st with ⟨sz, c, m, a, ns, e, f⟩
  cases a with
  | none => exact ⟨rfl, rfl, rfl, rfl⟩
  | some arr =>
    simp only
    cases getSlot arr h with
    | none => exact ⟨rfl, rfl, rfl, rfl⟩
    | some hd =>
      simp only
      cases suffixFrom ns hd with
      | nil => exact ⟨rfl, rfl, rfl, rfl⟩
      | cons g rest =>
        simp only
        cases runSplice h p.1 g rest with
        | none => exact ⟨rfl, rfl, rfl, rfl⟩
        | some gId => exact ⟨rfl, rfl, rfl, rfl⟩

/-- `__rehash` sets the bucket count and touches nothing but the array and
the list. -/
lemma __rehash_fields (st : Mumap K V) (n : Nat) :
    (__rehash hash st n).count = st.count ∧
    (__rehash hash st n).size = n ∧
    (__rehash hash st n).mlf = st.mlf ∧
    (__rehash hash st n).endId = st.endId :=
  ⟨rfl, rfl, rfl, rfl⟩

/-- The element count after `insert`: one more on success, unchanged on a
duplicate; the load factor never changes; and after a triggered growth the
bucket count is exactly the grown one. -/
lemma insert_fields (st : Mumap K V) (p : K × V) :
    ((MUM.insert hash st p).2.1 = true →
      (MUM.insert hash st p).2.2.count = st.count + 1) ∧
    ((MUM.insert hash st p).2.1 = false →
      (MUM.insert hash st p).2.2.count = st.count) ∧
    (MUM.insert hash st p).2.2.mlf = st.mlf ∧
    (mulMlfLt st.size st.mlf (st.count + 1) = true →
      (MUM.insert hash st p).2.2.size = growSize st.count st.mlf) := by
  unfold MUM.insert
  cases hg : mulMlfLt st.size st.mlf (st.count + 1) with
  | true =>
    simp only [eq_self_iff_true, if_true]
    obtain ⟨hc1, hs1, hm1, -⟩ := __rehash_fields hash st (growSize st.count st.mlf)
    cases hbi : __bucket_insert (__rehash hash st (growSize st.count st.mlf)) p
        (__constrain_hash (hash p.1)
          (__rehash hash st (growSize st.count st.mlf)).size) with
    | mk o st2 =>
      obtain ⟨hc2, hs2, hm2, -⟩ :=
        __bucket_insert_fields (__rehash hash st (growSize st.count st.mlf)) p
          (__constrain_hash (hash p.1)
            (__rehash hash st (growSize st.count st.mlf)).size)
      rw [hbi] at hc2 hs2 hm2
      cases o with
      | none =>
        exact ⟨fun hh => by simp at hh,
          fun _ => hc2.trans hc1, hm2.trans hm1, fun _ => hs2.trans hs1⟩
      | some nw =>
        exact ⟨fun _ => by
            show st2.count + 1 = st.count + 1
            rw [hc2, hc1],
          fun hh => by simp at hh, hm2.trans hm1, fun _ => hs2.trans hs1⟩
  | false =>
    simp only [Bool.false_eq_true, if_false]
    cases hbi : __bucket_insert st p
        (__constrain_hash (hash p.1) st.size) with
    | mk o st2 =>
      obtain ⟨hc2, hs2, hm2, -⟩ := __bucket_insert_fields st p
        (__constrain_hash (hash p.1) st.size)
      rw [hbi] at hc2 hs2 hm2
      cases o with
      | none =>
        exact ⟨fun hh => by simp at hh, fun _ => hc2, hm2, fun hh => hh.elim⟩
      | some nw =>
        exact ⟨fun _ => by
            show st2.count + 1 = st.count + 1
            rw [hc2],
          fun hh => by simp at hh, hm2, fun hh => hh.elim⟩

/-- `erase` never changes the bucket count or the load factor. -/
lemma erase_fields (st : Mumap K V) (k : K) :
    (MUM.erase hash st k).2.size = st.size ∧
    (MUM.erase hash st k).2.mlf = st.mlf := by
  unfold MUM.erase
  rcases st with ⟨sz, c, m, a, ns, e, f⟩
  cases a with
  | none => exact ⟨rfl, rfl⟩
  | some arr =>
    simp only
    cases getSlot arr (__constrain_hash (hash k) sz) with
    | none => exact ⟨rfl, rfl⟩
    | some hd =>
      simp only
      cases scanRun (__constrain_hash (hash k) sz) k (suffixFrom ns hd) with
      | none => exact ⟨rfl, rfl⟩
      | some g =>
        simp only
        cases succOf g.id ns with
        | none => exact ⟨rfl, rfl⟩
        | some sn => exact ⟨rfl, rfl⟩

/-- Claim C9: the hash-constraining function.  For every raw hash and every
bucket count `n ≥ 1`: when `n` is a power of two greater than two the result
is `h &&& (n-1)`; otherwise it is `h` itself when `h < n` and `h mod n`
when not.  (For `n = 1` and `n = 2` the source takes its masking branch,
which coincides with the claimed `h`-or-`h mod n` value.) -/
theorem c9_constrain_hash (h n : Nat) (hn : 1 ≤ n) :
    ((∃ k, n = 2 ^ k) → 2 < n → __constrain_hash h n = h &&& (n - 1)) ∧
    ((∃ k, n = 2 ^ k) → n ≤ 2 →
      __constrain_hash h n = if h < n then h else h % n) ∧
    (¬ (∃ k, n = 2 ^ k) →
      __constrain_hash h n = if h < n then h else h % n) := by
  have hpred : size_t_pred n = n - 1 := by
    unfold size_t_pred
    rw [if_neg (by omega)]
  refine ⟨?_, ?_, ?_⟩
  · rintro ⟨k, rfl⟩ _
    unfold __constrain_hash
    rw [hpred, if_pos (two_pow_and_pred k)]
  · rintro ⟨k, hk⟩ h2
    have hn12 : n = 1 ∨ n = 2 := by
      cases k with
      | zero => left; rw [hk]; norm_num
      | succ k2 =>
        cases k2 with
        | zero => right; rw [hk]; norm_num
        | succ k3 =>
          exfalso
          have hx : 2 ^ (k3 + 1 + 1) = 4 * 2 ^ k3 := by ring
          rw [hx] at hk
          have hp : 1 ≤ 2 ^ k3 := Nat.one_le_two_pow
          omega
    unfold __constrain_hash
    rw [hpred]
    rcases hn12 with rfl | rfl
    · rw [if_pos (by decide)]
      simp only [Nat.sub_self, Nat.and_zero]
      by_cases hh : h < 1
      · rw [if_pos hh]; omega
      · rw [if_neg hh, Nat.mod_one]
    · rw [if_pos (by decide)]
      show h &&& 1 = _
      rw [Nat.and_one_is_mod]
      by_cases hh : h < 2
      · rw [if_pos hh, Nat.mod_eq_of_lt hh]
      · rw [if_neg hh]
  · intro hnp
    unfold __constrain_hash
    rw [hpred, if_neg ?_]
    intro hand
    exact hnp (pow2_of_and_pred n (by omega) hand)

/-- Witness for C9 at `h = 13`, `n = 4`. -/
theorem c9_constrain_hash_witness : __constrain_hash 13 4 = 13 &&& (4 - 1) :=
  (c9_constrain_hash 13 4 (by decide)).1 ⟨2, by decide⟩ (by decide)

/-- Claim C5: a `rehash(n)` request with `n * max_load_factor < count`
throws `std::out_of_range` before touching anything: the state is returned
unchanged and every lookup result is preserved. -/
theorem c5_rehash_reject (st : Mumap K V) (n : Nat)
    (hlt : (n : ℚ) * st.mlf < (st.count : ℚ)) :
    MUM.rehash hash st n = (false, st) ∧
    (MUM.rehash hash st n).2.count = st.count ∧
    (MUM.rehash hash st n).2.size = st.size ∧
    ∀ k, lookup hash (MUM.rehash hash st n).2 k = lookup hash st k := by
  have hg : mulMlfLt n st.mlf st.count = true := (mulMlfLt_iff n st.count st.mlf).mpr hlt
  have heq : MUM.rehash hash st n = (false, st) := by
    unfold MUM.rehash
    rw [if_pos hg]
  exact ⟨heq, by rw [heq], by rw [heq], fun k => by rw [heq]⟩

/-- Witness for C5: rejecting `rehash(0)` on a one-element container. -/
theorem c5_rehash_reject_witness :
    MUM.rehash (fun k => k) ((MUM.insert (fun k => k) mumapNew ((3 : Nat), (7 : Nat))).2.2) 0 =
      (false, (MUM.insert (fun k => k) mumapNew ((3 : Nat), (7 : Nat))).2.2) :=
  (c5_rehash_reject (fun k => k) _ 0 (by
    show ((0 : Nat) : ℚ) * (1 : ℚ) < ((1 : Nat) : ℚ)
    push_cast
    linarith)).1

/-- Claim C7: the load-factor bound is re-established before an insertion:
if the insertion triggers growth (`size * mlf < count + 1`) then after the
insert `count ≤ size * mlf` holds; and `erase` never adjusts the bucket
count (no shrinking). -/
theorem c7_load_factor_guard (st : Mumap K V) (p : K × V) (k : K)
    (hm : 0 < st.mlf)
    (htrig : (st.size : ℚ) * st.mlf < (st.count : ℚ) + 1) :
    ((MUM.insert hash st p).2.2.count : ℚ) ≤
      ((MUM.insert hash st p).2.2.size : ℚ) * (MUM.insert hash st p).2.2.mlf ∧
    (MUM.erase hash st k).2.size = st.size := by
  have hg : mulMlfLt st.size st.mlf (st.count + 1) = true := by
    rw [mulMlfLt_iff]
    push_cast
    exact htrig
  obtain ⟨hsucc, hfail, hmlf, hsize⟩ := insert_fields hash st p
  have hsz := hsize hg
  have hcnt : (MUM.insert hash st p).2.2.count ≤ st.count + 1 := by
    cases hb : (MUM.insert hash st p).2.1 with
    | true => rw [hsucc hb]
    | false => rw [hfail hb]; omega
  refine ⟨?_, (erase_fields hash st k).1⟩
  rw [hmlf, hsz]
  calc ((MUM.insert hash st p).2.2.count : ℚ) ≤ ((st.count + 1 : Nat) : ℚ) := by
        exact_mod_cast hcnt
    _ = (st.count : ℚ) + 1 := by push_cast; ring
    _ ≤ (growSize st.count st.mlf : ℚ) * st.mlf := growSize_load st.count st.mlf hm

/-! ### Bucket-head array lemmas -/

lemma setSlot_length (a : List (Option Nat)) (i : Nat) (v : Option Nat) :
    (setSlot a i v).length = a.length := by
  induction a generalizing i with
  | nil => rfl
  | cons x xs ih =>
    cases i with
    | zero => rfl
    | succ j => simpa [setSlot] using ih j

lemma getSlot_setSlot_self (a : List (Option Nat)) (i : Nat) (v : Option Nat)
    (h : i < a.length) : getSlot (setSlot a i v) i = v := by
  induction a generalizing i with
  | nil => simp at h
  | cons x xs ih =>
    cases i with
    | zero => rfl
    | succ j =>
      simp only [setSlot, getSlot]
      exact ih j (by simpa using h)

lemma getSlot_setSlot_ne (a : List (Option Nat)) (i j : Nat) (v : Option Nat)
    (h : i ≠ j) : getSlot (setSlot a i v) j = getSlot a j := by
  induction a generalizing i j with
  | nil => rfl
  | cons x xs ih =>
    cases i with
    | zero =>
      cases j with
      | zero => exact absurd rfl h
      | succ j2 => rfl
    | succ i2 =>
      cases j with
      | zero => rfl
      | succ j2 =>
        simp only [setSlot, getSlot]
        exact ih i2 j2 (by omega)

lemma getSlot_replicate (n i : Nat) :
    getSlot (List.replicate n (none : Option Nat)) i = none := by
  induction n generalizing i with
  | zero => rfl
  | succ m ih =>
    cases i with
    | zero => rfl
    | succ j => simpa [List.replicate, getSlot] using ih j

lemma lt_length_of_getSlot_eq_some (a : List (Option Nat)) (i x : Nat)
    (h : getSlot a i = some x) : i < a.length := by
  induction a generalizing i with
  | nil => simp [getSlot] at h
  | cons y ys ih =>
    cases i with
    | zero => simp
    | succ j =>
      simp only [getSlot] at h
      have := ih j h
      simpa using Nat.succ_lt_succ this

/-! ### Surgery on the shared list, addressed by node identity -/

lemma suffixFrom_append (l1 l2 : List (Node K V)) (g : Node K V)
    (hnot : g.id ∉ l1.map Node.id) :
    suffixFrom (l1 ++ g :: l2) g.id = g :: l2 := by
  induction l1 with
  | nil => simp [suffixFrom]
  | cons x xs ih =>
    simp only [List.map_cons, List.mem_cons] at hnot
    push_neg at hnot
    simp only [List.cons_append, suffixFrom, if_neg (Ne.symm hnot.1)]
    exact ih hnot.2

lemma spliceAfter_append (l1 l2 : List (Node K V)) (g nw : Node K V)
    (hnot : g.id ∉ l1.map Node.id) :
    spliceAfter g.id nw (l1 ++ g :: l2) = l1 ++ g :: nw :: l2 := by
  induction l1 with
  | nil => simp [spliceAfter]
  | cons x xs ih =>
    simp only [List.map_cons, List.mem_cons] at hnot
    push_neg at hnot
    simp only [List.cons_append, spliceAfter, if_neg (Ne.symm hnot.1)]
    exact congrArg (List.cons x) (ih hnot.2)

lemma succOf_append (l1 l2 : List (Node K V)) (g : Node K V)
    (hnot : g.id ∉ l1.map Node.id) :
    succOf g.id (l1 ++ g :: l2) = l2.head? := by
  induction l1 with
  | nil => simp [succOf]
  | cons x xs ih =>
    simp only [List.map_cons, List.mem_cons] at hnot
    push_neg at hnot
    simp only [List.cons_append, succOf, if_neg (Ne.symm hnot.1)]
    exact ih hnot.2

lemma eraseStep_append_last (l1 : List (Node K V)) (g : Node K V)
    (hnot : g.id ∉ l1.map Node.id) :
    eraseStep g.id (l1 ++ [g]) = l1 := by
  induction l1 with
  | nil => simp [eraseStep]
  | cons x xs ih =>
    simp only [List.map_cons, List.mem_cons] at hnot
    push_neg at hnot
    simp only [List.cons_append, eraseStep, if_neg (Ne.symm hnot.1)]
    exact congrArg (List.cons x) (ih hnot.2)

lemma eraseStep_append_cons (l1 l2 : List (Node K V)) (g s : Node K V)
    (hnot : g.id ∉ l1.map Node.id) :
    eraseStep g.id (l1 ++ g :: s :: l2) =
      l1 ++ (⟨g.id, s.key, s.val, s.hash⟩ : Node K V) :: l2 := by
  induction l1 with
  | nil => simp [eraseStep]
  | cons x xs ih =>
    simp only [List.map_cons, List.mem_cons] at hnot
    push_neg at hnot
    simp only [List.cons_append, eraseStep, if_neg (Ne.symm hnot.1)]
    exact congrArg (List.cons x) (ih hnot.2)

/-! ### Bucket runs: the contiguity decomposition of the shared list -/

/-- A run: the first node of a bucket's contiguous segment and the rest. -/
def runList (r : Node K V × List (Node K V)) : List (Node K V) := r.1 :: r.2

/-- The constrained hash a run belongs to. -/
def runHash (r : Node K V × List (Node K V)) : Nat := r.1.hash

/-- The shared list corresponding to a sequence of runs. -/
def nodesOf : List (Node K V × List (Node K V)) → List (Node K V)
  | [] => []
  | r :: rs => runList r ++ nodesOf rs

/-- The bucket head dictated by a sequence of runs. -/
def headOf : List (Node K V × List (Node K V)) → Nat → Option Nat
  | [], _ => none
  | r :: rs, h => if runHash r = h then some r.1.id else headOf rs h

lemma nodesOf_append (rs1 rs2 : List (Node K V × List (Node K V))) :
    nodesOf (rs1 ++ rs2) = nodesOf rs1 ++ nodesOf rs2 := by
  induction rs1 with
  | nil => rfl
  | cons r rs ih => simp [nodesOf, ih]

lemma mem_nodesOf (rs : List (Node K V × List (Node K V))) (nd : Node K V) :
    nd ∈ nodesOf rs ↔ ∃ r ∈ rs, nd ∈ runList r := by
  induction rs with
  | nil => simp [nodesOf]
  | cons r rs ih =>
    simp only [nodesOf, List.mem_append, ih, List.mem_cons]
    constructor
    · rintro (hx | ⟨r2, hr2, hx⟩)
      · exact ⟨r, Or.inl rfl, hx⟩
      · exact ⟨r2, Or.inr hr2, hx⟩
    · rintro ⟨r2, hr2 | hr2, hx⟩
      · exact Or.inl (hr2 ▸ hx)
      · exact Or.inr ⟨r2, hr2, hx⟩

lemma headOf_append_none (rs1 rs2 : List (Node K V × List (Node K V))) (h : Nat)
    (h1 : headOf rs1 h = none) : headOf (rs1 ++ rs2) h = headOf rs2 h := by
  induction rs1 with
  | nil => rfl
  | cons r rs ih =>
    simp only [headOf] at h1 ⊢
    rcases hx : decide (runHash r = h) with _ | _
    · simp only [decide_eq_false_iff_not] at hx
      rw [if_neg hx] at h1 ⊢
      exact ih h1
    · simp only [decide_eq_true_eq] at hx
      rw [if_pos hx] at h1
      cases h1

lemma headOf_append_some (rs1 rs2 : List (Node K V × List (Node K V))) (h x : Nat)
    (h1 : headOf rs1 h = some x) : headOf (rs1 ++ rs2) h = some x := by
  induction rs1 with
  | nil => cases h1
  | cons r rs ih =>
    simp only [headOf] at h1 ⊢
    rcases hx : decide (runHash r = h) with _ | _
    · simp only [decide_eq_false_iff_not] at hx
      rw [if_neg hx] at h1 ⊢
      exact ih h1
    · simp only [decide_eq_true_eq] at hx
      rw [if_pos hx] at h1 ⊢
      exact h1

lemma headOf_eq_none_iff (rs : List (Node K V × List (Node K V))) (h : Nat) :
    headOf rs h = none ↔ ∀ r ∈ rs, runHash r ≠ h := by
  induction rs with
  | nil => simp [headOf]
  | cons r rs ih =>
    simp only [headOf, List.mem_cons]
    constructor
    · intro hn r2 hr2
      by_cases hx : runHash r = h
      · rw [if_pos hx] at hn; cases hn
      · rw [if_neg hx] at hn
        rcases hr2 with rfl | hr2
        · exact hx
        · exact (ih.mp hn) r2 hr2
    · intro hall
      rw [if_neg (hall r (Or.inl rfl))]
      exact ih.mpr (fun r2 hr2 => hall r2 (Or.inr hr2))

lemma headOf_decomp (rs : List (Node K V × List (Node K V))) (h x : Nat)
    (hsome : headOf rs h = some x) :
    ∃ rs1 r rs2, rs = rs1 ++ r :: rs2 ∧ runHash r = h ∧ r.1.id = x ∧
      ∀ r' ∈ rs1, runHash r' ≠ h := by
  induction rs with
  | nil => cases hsome
  | cons r rs ih =>
    simp only [headOf] at hsome
    by_cases hx : runHash r = h
    · rw [if_pos hx] at hsome
      exact ⟨[], r, rs, by simp, hx, by injection hsome, by simp⟩
    · rw [if_neg hx] at hsome
      obtain ⟨rs1, r2, rs2, hsplit, hh, hid, hnone⟩ := ih hsome
      refine ⟨r :: rs1, r2, rs2, by rw [hsplit]; rfl, hh, hid, ?_⟩
      intro r' hr'
      rcases List.mem_cons.mp hr' with rfl | hr'
      · exact hx
      · exact hnone r' hr'

/-- The last node of a run, walked from its head. -/
def lastN (g : Node K V) : List (Node K V) → Node K V
  | [] => g
  | n :: rest => lastN n rest

lemma lastN_decomp (g : Node K V) (l : List (Node K V)) :
    ∃ init, g :: l = init ++ [lastN g l] := by
  induction l generalizing g with
  | nil => exact ⟨[], rfl⟩
  | cons n rest ih =>
    obtain ⟨init, hinit⟩ := ih n
    exact ⟨g :: init, by simp [lastN, ← hinit]⟩

lemma lastN_mem (g : Node K V) (l : List (Node K V)) : lastN g l ∈ g :: l := by
  induction l generalizing g with
  | nil => simp [lastN]
  | cons n rest ih =>
    simp only [lastN]
    exact List.mem_cons_of_mem g (ih n)

/-! ### The scan loops over a decomposed run -/

lemma scanRun_spec (h : Nat) (key : K) (l tail : List (Node K V))
    (hl : ∀ nd ∈ l, nd.hash = h) (ht : ∀ nd ∈ tail, nd.hash ≠ h) :
    (scanRun h key (l ++ tail) = none ↔ ∀ nd ∈ l, nd.key ≠ key) ∧
    (∀ g, scanRun h key (l ++ tail) = some g → g ∈ l ∧ g.key = key) := by
  induction l with
  | nil =>
    cases tail with
    | nil => simp [scanRun]
    | cons t rest =>
      simp only [List.nil_append, scanRun, if_neg (ht t (by simp))]
      simp
  | cons g0 l ih =>
    have ih2 := ih (fun nd hnd => hl nd (List.mem_cons_of_mem g0 hnd))
    simp only [List.cons_append, scanRun, if_pos (hl g0 (by simp))]
    by_cases hk : g0.key = key
    · rw [if_pos hk]
      constructor
      · constructor
        · intro hcontr; cases hcontr
        · intro hall
          exact absurd hk (hall g0 (by simp))
      · intro g hg
        injection hg with hg
        exact ⟨by simp [← hg], hg ▸ hk⟩
    · rw [if_neg hk]
      constructor
      · refine ih2.1.trans ⟨?_, ?_⟩
        · intro hall nd hnd
          rcases List.mem_cons.mp hnd with rfl | hnd
          · exact hk
          · exact hall nd hnd
        · intro hall nd hnd
          exact hall nd (List.mem_cons_of_mem g0 hnd)
      · intro g hg
        obtain ⟨hmem, hkey⟩ := ih2.2 g hg
        exact ⟨List.mem_cons_of_mem g0 hmem, hkey⟩

lemma runSplice_spec (h : Nat) (key : K) (g : Node K V) (l tail : List (Node K V))
    (hl : ∀ nd ∈ l, nd.hash = h) (ht : ∀ nd ∈ tail, nd.hash ≠ h) :
    ((∃ nd ∈ g :: l, nd.key = key) → runSplice h key g (l ++ tail) = none) ∧
    ((∀ nd ∈ g :: l, nd.key ≠ key) →
      runSplice h key g (l ++ tail) = some (lastN g l).id) := by
  induction l generalizing g with
  | nil =>
    cases tail with
    | nil =>
      simp only [List.append_nil, runSplice, lastN]
      constructor
      · rintro ⟨nd, hnd, hkey⟩
        simp only [List.mem_singleton] at hnd
        rw [if_pos (hnd ▸ hkey)]
      · intro hall
        rw [if_neg (hall g (by simp))]
    | cons t rest =>
      simp only [List.nil_append, runSplice, if_neg (ht t (by simp)), lastN]
      constructor
      · rintro ⟨nd, hnd, hkey⟩
        simp only [List.mem_singleton] at hnd
        rw [if_pos (hnd ▸ hkey)]
      · intro hall
        rw [if_neg (hall g (by simp))]
  | cons n l ih =>
    have ih2 := ih n (fun nd hnd => hl nd (List.mem_cons_of_mem n hnd))
    simp only [List.cons_append, runSplice, if_pos (hl n (by simp)), lastN]
    constructor
    · rintro ⟨nd, hnd, hkey⟩
      by_cases hgk : g.key = key
      · rw [if_pos hgk]
      · rw [if_neg hgk]
        rcases List.mem_cons.mp hnd with rfl | hnd
        · exact absurd hkey hgk
        · exact ih2.1 ⟨nd, hnd, hkey⟩
    · intro hall
      rw [if_neg (hall g (by simp))]
      exact ih2.2 (fun nd hnd => hall nd (List.mem_cons_of_mem g hnd))

/-! ### The well-formedness invariant -/

/-- The invariant tying a container state to a decomposition of its shared
list into bucket runs: the list is the concatenation of the runs, each run's
nodes carry the run's hash, distinct runs have distinct hashes, every bucket
slot holds exactly the head of its run, cached hashes are the constrained
hashes of the keys, node identities (and the sentinel's) are distinct and
below the allocation counter, keys are distinct, and the array has exactly
`size` slots. -/
structure WFr (hash : K → Nat) (st : Mumap K V)
    (runs : List (Node K V × List (Node K V))) : Prop where
  flat : st.nodes = nodesOf runs
  hashEq : ∀ r ∈ runs, ∀ nd ∈ runList r, nd.hash = runHash r
  hashesNodup : (runs.map runHash).Nodup
  heads : ∀ h, slot st h = headOf runs h
  hashCorrect : ∀ nd ∈ st.nodes, nd.hash = __constrain_hash (hash nd.key) st.size
  idsNodup : (st.nodes.map Node.id).Nodup
  endNotIn : st.endId ∉ st.nodes.map Node.id
  idsFresh : ∀ nd ∈ st.nodes, nd.id < st.fresh
  endFresh : st.endId < st.fresh
  keysNodup : (st.nodes.map Node.key).Nodup
  arrLen : ∀ a, st.array = some a → a.length = st.size
  arrNone : st.array = none → st.size = 0
  mlfNonneg : 0 ≤ st.mlf

/-- Core well-formedness: some run decomposition exists. -/
def WFc (st : Mumap K V) : Prop := ∃ runs, WFr hash st runs

/-- Full well-formedness: core plus accurate element count. -/
def WF (st : Mumap K V) : Prop := WFc hash st ∧ st.count = st.nodes.length

lemma slot_eq_some (st : Mumap K V) (h x : Nat) (hs : slot st h = some x) :
    ∃ a, st.array = some a ∧ getSlot a h = some x := by
  unfold slot at hs
  cases ha : st.array with
  | none => rw [ha] at hs; cases hs
  | some a => rw [ha] at hs; exact ⟨a, rfl, hs⟩

lemma headOf_ne_none_of_mem (rs : List (Node K V × List (Node K V)))
    (r : Node K V × List (Node K V)) (hr : r ∈ rs) :
    headOf rs (runHash r) ≠ none :=
  fun hnone => (headOf_eq_none_iff rs (runHash r)).mp hnone r hr rfl

lemma nodup_middle_not_left {α : Type _} {A B : List α} {x : α}
    (h : (A ++ x :: B).Nodup) : x ∉ A ∧ x ∉ B := by
  rcases List.nodup_append.mp h with ⟨-, h2, hdisj⟩
  exact ⟨fun hx => hdisj hx (List.mem_cons_self x B),
    (List.nodup_cons.mp h2).1⟩

lemma WFr.nodes_nil_of_array_none {st : Mumap K V}
    {runs : List (Node K V × List (Node K V))}
    (w : WFr hash st runs) (ha : st.array = none) :
    st.nodes = [] ∧ runs = [] := by
  cases runs with
  | nil => exact ⟨by rw [w.flat]; rfl, rfl⟩
  | cons r rs =>
    exfalso
    have h1 := w.heads (runHash r)
    simp only [slot, ha] at h1
    exact headOf_ne_none_of_mem (r :: rs) r (by simp) h1.symm

lemma WFr.size_pos {st : Mumap K V} {runs : List (Node K V × List (Node K V))}
    (w : WFr hash st runs) (h : st.nodes ≠ []) : 0 < st.size := by
  rcases hsplit : runs with _ | ⟨r, rs⟩
  · rw [w.flat, hsplit] at h
    exact absurd rfl h
  · have h1 := w.heads (runHash r)
    rw [hsplit] at h1
    simp only [headOf, if_pos rfl] at h1
    obtain ⟨a, ha, hget⟩ := slot_eq_some st (runHash r) r.1.id h1
    have hlt := lt_length_of_getSlot_eq_some a (runHash r) r.1.id hget
    have := w.arrLen a ha
    omega

/-- Locate the run a non-null bucket slot points at, together with the
decomposition of the shared list around it and the suffix the source's
pointer walk visits. -/
lemma WFr.run_decomp {st : Mumap K V} {runs : List (Node K V × List (Node K V))}
    (w : WFr hash st runs) (h x : Nat) (hs : slot st h = some x) :
    ∃ rs1 r rs2, runs = rs1 ++ r :: rs2 ∧ runHash r = h ∧ r.1.id = x ∧
      st.nodes = nodesOf rs1 ++ (runList r ++ nodesOf rs2) ∧
      (∀ nd ∈ runList r, nd.hash = h) ∧
      (∀ nd ∈ nodesOf rs1, nd.hash ≠ h) ∧
      (∀ nd ∈ nodesOf rs2, nd.hash ≠ h) ∧
      r.1.id ∉ (nodesOf rs1).map Node.id ∧
      suffixFrom st.nodes x = runList r ++ nodesOf rs2 := by
  obtain ⟨rs1, r, rs2, hsplit, hh, hid, hfirst⟩ :=
    headOf_decomp runs h x (by rw [← w.heads h]; exact hs)
  have hrmem : r ∈ runs := by
    rw [hsplit]
    exact List.mem_append_right rs1 (List.mem_cons_self r rs2)
  have hnodes : st.nodes = nodesOf rs1 ++ (runList r ++ nodesOf rs2) := by
    rw [w.flat, hsplit, nodesOf_append]
    rfl
  have hrun : ∀ nd ∈ runList r, nd.hash = h := by
    intro nd hnd
    rw [w.hashEq r hrmem nd hnd, hh]
  have hrs1 : ∀ nd ∈ nodesOf rs1, nd.hash ≠ h := by
    intro nd hnd
    obtain ⟨r1, hr1, hin⟩ := (mem_nodesOf rs1 nd).mp hnd
    rw [w.hashEq r1 (by rw [hsplit]; exact List.mem_append_left _ hr1) nd hin]
    exact hfirst r1 hr1
  have hnodupmap : ((rs1 ++ r :: rs2).map runHash).Nodup := by
    rw [← hsplit]; exact w.hashesNodup
  have hrs2 : ∀ nd ∈ nodesOf rs2, nd.hash ≠ h := by
    intro nd hnd
    obtain ⟨r2, hr2, hin⟩ := (mem_nodesOf rs2 nd).mp hnd
    rw [w.hashEq r2 (by
      rw [hsplit]
      exact List.mem_append_right _ (List.mem_cons_of_mem r hr2)) nd hin]
    rw [List.map_append] at hnodupmap
    have h3 := hnodupmap.of_append_right
    rw [List.map_cons] at h3
    have h4 := (List.nodup_cons.mp h3).1
    intro hcon
    apply h4
    have hrr : runHash r = runHash r2 := by rw [hh, hcon]
    rw [hrr]
    exact List.mem_map_of_mem runHash hr2
  have hids : ((nodesOf rs1).map Node.id ++
      r.1.id :: ((r.2 ++ nodesOf rs2).map Node.id)).Nodup := by
    have := w.idsNodup
    rw [hnodes] at this
    simpa [runList, List.map_append] using this
  have hnotin : r.1.id ∉ (nodesOf rs1).map Node.id := (nodup_middle_not_left hids).1
  have hsuffix : suffixFrom st.nodes x = runList r ++ nodesOf rs2 := by
    rw [hnodes, ← hid]
    have hre : nodesOf rs1 ++ (runList r ++ nodesOf rs2) =
        nodesOf rs1 ++ r.1 :: (r.2 ++ nodesOf rs2) := by
      simp [runList]
    rw [hre, suffixFrom_append _ _ _ hnotin]
    simp [runList]
  exact ⟨rs1, r, rs2, hsplit, hh, hid, hnodes, hrun, hrs1, hrs2, hnotin, hsuffix⟩

/-! ### Correctness of find under the invariant -/

/-- `find` in terms of the slot lookup (the public wrapper's null-array
check agrees with the null-slot result). -/
lemma find_eq (st : Mumap K V) (key : K) :
    find hash st key =
      (match slot st (__constrain_hash (hash key) st.size) with
       | none => none
       | some hd => scanRun (__constrain_hash (hash key) st.size) key
           (suffixFrom st.nodes hd)) := by
  unfold find __find slot
  cases st.array with
  | none => rfl
  | some a => rfl

/-- What a returned handle means, and what the end marker means. -/
lemma find_mem {st : Mumap K V} {runs : List (Node K V × List (Node K V))}
    (w : WFr hash st runs) (key : K) :
    (∀ g, find hash st key = some g → g ∈ st.nodes ∧ g.key = key) ∧
    (find hash st key = none → ∀ nd ∈ st.nodes, nd.key ≠ key) := by
  rw [find_eq]
  cases hs : slot st (__constrain_hash (hash key) st.size) with
  | none =>
    show (∀ g, (none : Option (Node K V)) = some g → g ∈ st.nodes ∧ g.key = key) ∧
      ((none : Option (Node K V)) = none → ∀ nd ∈ st.nodes, nd.key ≠ key)
    refine ⟨fun g hg => (by cases hg), fun _ nd hnd hkeq => ?_⟩
    have hh : nd.hash = __constrain_hash (hash key) st.size := by
      rw [w.hashCorrect nd hnd, hkeq]
    obtain ⟨r, hr, hrin⟩ := (mem_nodesOf runs nd).mp (by rw [← w.flat]; exact hnd)
    have hrh : runHash r = __constrain_hash (hash key) st.size := by
      rw [← w.hashEq r hr nd hrin, hh]
    have h2 := (headOf_eq_none_iff runs _).mp (by rw [← w.heads _]; exact hs) r hr
    exact h2 hrh
  | some x =>
    obtain ⟨rs1, r, rs2, hsplit, hh, hid, hnodes, hrun, hrs1, hrs2, hnotin, hsuffix⟩ :=
      WFr.run_decomp hash w _ x hs
    show (∀ g, scanRun (__constrain_hash (hash key) st.size) key
        (suffixFrom st.nodes x) = some g → g ∈ st.nodes ∧ g.key = key) ∧
      (scanRun (__constrain_hash (hash key) st.size) key
        (suffixFrom st.nodes x) = none → ∀ nd ∈ st.nodes, nd.key ≠ key)
    rw [hsuffix]
    have hspec := scanRun_spec (__constrain_hash (hash key) st.size) key
      (runList r) (nodesOf rs2) hrun hrs2
    constructor
    · intro g hg
      obtain ⟨hmem, hkey⟩ := hspec.2 g hg
      refine ⟨?_, hkey⟩
      rw [hnodes]
      exact List.mem_append_right _ (List.mem_append_left _ hmem)
    · intro hnone nd hnd hkeq
      have hh2 : nd.hash = __constrain_hash (hash key) st.size := by
        rw [w.hashCorrect nd hnd, hkeq]
      rw [hnodes] at hnd
      rcases List.mem_append.mp hnd with hnd1 | hnd23
      · exact hrs1 nd hnd1 hh2
      · rcases List.mem_append.mp hnd23 with hnd2 | hnd3
        · exact (hspec.1.mp hnone) nd hnd2 hkeq
        · exact hrs2 nd hnd3 hh2

/-- Not-found lookups characterize absence of the key. -/
lemma lookup_eq_none_iff {st : Mumap K V} (hwf : WFc hash st) (k : K) :
    lookup hash st k = none ↔ ∀ nd ∈ st.nodes, nd.key ≠ k := by
  obtain ⟨runs, w⟩ := hwf
  unfold lookup
  cases hf : find hash st k with
  | none =>
    constructor
    · intro _
      exact (find_mem hash w k).2 hf
    · intro _
      rfl
  | some g =>
    obtain ⟨hmem, hkey⟩ := (find_mem hash w k).1 g hf
    constructor
    · intro hcon
      cases hcon
    · intro hall
      exact absurd hkey (hall g hmem)

/-- Successful lookups characterize presence with the mapped value. -/
lemma lookup_eq_some_iff {st : Mumap K V} (hwf : WFc hash st) (k : K) (v : V) :
    lookup hash st k = some v ↔ ∃ nd, nd ∈ st.nodes ∧ nd.key = k ∧ nd.val = v := by
  obtain ⟨runs, w⟩ := hwf
  unfold lookup
  cases hf : find hash st k with
  | none =>
    constructor
    · intro hcon
      cases hcon
    · rintro ⟨nd, hnd, hkey, hval⟩
      exact absurd hkey ((find_mem hash w k).2 hf nd hnd)
  | some g =>
    obtain ⟨hmem, hkey⟩ := (find_mem hash w k).1 g hf
    show some g.val = some v ↔ _
    constructor
    · intro hv
      exact ⟨g, hmem, hkey, by injection hv⟩
    · rintro ⟨nd, hnd, hkey2, hval⟩
      have hgnd : g = nd :=
        List.inj_on_of_nodup_map w.keysNodup hmem hnd (by rw [hkey, hkey2])
      rw [hgnd, hval]

/-! ### Preservation of the invariant by the bucket insertion primitive -/

lemma __constrain_hash_lt (x n : Nat) (hn : 0 < n) : __constrain_hash x n < n := by
  have hpred : size_t_pred n = n - 1 := by
    unfold size_t_pred
    rw [if_neg (by omega)]
  unfold __constrain_hash
  rw [hpred]
  by_cases hp : n &&& (n - 1) = 0
  · rw [if_pos hp]
    have h1 : x &&& (n - 1) ≤ n - 1 := Nat.and_le_right
    omega
  · rw [if_neg hp]
    by_cases hx : x < n
    · rw [if_pos hx]
      exact hx
    · rw [if_neg hx]
      exact Nat.mod_lt x hn

lemma slot_eq_getSlot (st : Mumap K V) (a : List (Option Nat))
    (ha : st.array = some a) (h : Nat) : slot st h = getSlot a h := by
  unfold slot
  rw [ha]

lemma find_eq_none_of_slot_none (st : Mumap K V) (key : K)
    (hs : slot st (__constrain_hash (hash key) st.size) = none) :
    find hash st key = none := by
  rw [find_eq, hs]

lemma headOf_congr_mid (rs1 rs2 : List (Node K V × List (Node K V)))
    (r r' : Node K V × List (Node K V)) (hhash : runHash r' = runHash r)
    (hfst : r'.1.id = r.1.id) (h : Nat) :
    headOf (rs1 ++ r' :: rs2) h = headOf (rs1 ++ r :: rs2) h := by
  induction rs1 with
  | nil =>
    simp only [List.nil_append, headOf, hhash, hfst]
  | cons q qs ih =>
    simp only [List.cons_append, headOf]
    by_cases hq : runHash q = h
    · rw [if_pos hq, if_pos hq]
    · rw [if_neg hq, if_neg hq]
      exact ih

/-- Complete behaviour of `__bucket_insert st p h` for `h` the constrained
hash of `p`'s key, on a well-formed state with a positive bucket count:
on success the new node is freshly allocated with payload `p`, the key was
absent, the shared list gains exactly that node and the invariant is
re-established; on failure the state is returned untouched and the key was
present. -/
lemma bucket_insert_spec {st : Mumap K V}
    {runs : List (Node K V × List (Node K V))} (w : WFr hash st runs)
    (p : K × V) (hsz : 0 < st.size) :
    (∀ nw st2,
      __bucket_insert st p (__constrain_hash (hash p.1) st.size) = (some nw, st2) →
      WFc hash st2 ∧
      nw = ⟨st.fresh, p.1, p.2, __constrain_hash (hash p.1) st.size⟩ ∧
      (∀ nd ∈ st.nodes, nd.key ≠ p.1) ∧
      st2.nodes.Perm (nw :: st.nodes) ∧
      st2.count = st.count ∧ st2.size = st.size ∧ st2.mlf = st.mlf ∧
      st2.endId = st.endId ∧ st2.fresh = st.fresh + 1) ∧
    (∀ st2,
      __bucket_insert st p (__constrain_hash (hash p.1) st.size) = (none, st2) →
      st2 = st ∧ ∃ nd ∈ st.nodes, nd.key = p.1) := by
  obtain ⟨a, ha⟩ : ∃ a, st.array = some a := by
    cases harr : st.array with
    | none =>
      have := w.arrNone harr
      omega
    | some a => exact ⟨a, rfl⟩
  have halen : a.length = st.size := w.arrLen a ha
  have hfreshnot : st.fresh ∉ st.nodes.map Node.id := by
    intro hmem
    obtain ⟨nd, hnd, hidm⟩ := List.mem_map.mp hmem
    have := w.idsFresh nd hnd
    omega
  set h := __constrain_hash (hash p.1) st.size with hhdef
  have hlt : h < a.length := by
    rw [halen]
    exact __constrain_hash_lt (hash p.1) st.size hsz
  have hbase : __bucket_insert st p h =
      (match getSlot a h with
       | none =>
         (some (⟨st.fresh, p.1, p.2, h⟩ : Node K V),
           { st with array := some (setSlot a h (some st.fresh)),
                     nodes := (⟨st.fresh, p.1, p.2, h⟩ : Node K V) :: st.nodes,
                     fresh := st.fresh + 1 })
       | some hd =>
         match suffixFrom st.nodes hd with
         | [] => (none, st)
         | g :: rest =>
           match runSplice h p.1 g rest with
           | none => (none, st)
           | some gId =>
             (some (⟨st.fresh, p.1, p.2, h⟩ : Node K V),
               { st with
                   nodes := spliceAfter gId (⟨st.fresh, p.1, p.2, h⟩ : Node K V)
                     st.nodes,
                   fresh := st.fresh + 1 })) := by
    unfold __bucket_insert
    rw [ha]
  cases hslot : getSlot a h with
  | none =>
    rw [hslot] at hbase
    have hbase2 : __bucket_insert st p h =
        (some (⟨st.fresh, p.1, p.2, h⟩ : Node K V),
          { st with array := some (setSlot a h (some st.fresh)),
                    nodes := (⟨st.fresh, p.1, p.2, h⟩ : Node K V) :: st.nodes,
                    fresh := st.fresh + 1 }) := hbase
    have hslot2 : slot st h = none := by
      rw [slot_eq_getSlot st a ha]
      exact hslot
    have hnokey : ∀ nd ∈ st.nodes, nd.key ≠ p.1 :=
      (find_mem hash w p.1).2 (find_eq_none_of_slot_none hash st p.1 hslot2)
    have hnotmap : h ∉ runs.map runHash := by
      intro hmem
      obtain ⟨r, hr, hrh⟩ := List.mem_map.mp hmem
      exact (headOf_eq_none_iff runs h).mp (by rw [← w.heads h]; exact hslot2) r hr hrh
    constructor
    · intro nw st2 heq
      rw [hbase2] at heq
      injection heq with h1 h2
      injection h1 with h1
      subst h1
      subst h2
      refine ⟨?_, rfl, hnokey, List.Perm.refl _, rfl, rfl, rfl, rfl, rfl⟩
      refine ⟨((⟨st.fresh, p.1, p.2, h⟩ : Node K V), ([] : List (Node K V))) :: runs,
        { flat := ?_, hashEq := ?_, hashesNodup := ?_, heads := ?_,
          hashCorrect := ?_, idsNodup := ?_, endNotIn := ?_, idsFresh := ?_,
          endFresh := ?_, keysNodup := ?_, arrLen := ?_, arrNone := ?_,
          mlfNonneg := ?_ }⟩
      · show (⟨st.fresh, p.1, p.2, h⟩ : Node K V) :: st.nodes = _
        rw [w.flat]
        rfl
      · intro r hr nd hnd
        rcases List.mem_cons.mp hr with rfl | hr
        · simp only [runList] at hnd
          rcases List.mem_cons.mp hnd with rfl | hnd
          · rfl
          · simp at hnd
        · exact w.hashEq r hr nd hnd
      · rw [List.map_cons]
        exact List.nodup_cons.mpr ⟨hnotmap, w.hashesNodup⟩
      · intro h3
        show getSlot (setSlot a h (some st.fresh)) h3 = _
        by_cases hcase : h3 = h
        · subst hcase
          rw [getSlot_setSlot_self a h (some st.fresh) hlt]
          simp [headOf, runHash]

        · rw [getSlot_setSlot_ne a h h3 (some st.fresh) (fun hcon => hcase hcon.symm)]
          have hw5 : getSlot a h3 = headOf runs h3 := by
            rw [← slot_eq_getSlot st a ha]
            exact w.heads h3
          rw [hw5]
          simp only [headOf, runHash]
          rw [if_neg (fun hcon => hcase ((show h = h3 from hcon).symm))]
      · intro nd hnd
        rcases List.mem_cons.mp hnd with rfl | hnd
        · exact hhdef
        · exact w.hashCorrect nd hnd
      · show (List.map Node.id ((⟨st.fresh, p.1, p.2, h⟩ : Node K V) :: st.nodes)).Nodup
        rw [List.map_cons]
        exact List.nodup_cons.mpr ⟨hfreshnot, w.idsNodup⟩
      · show st.endId ∉ List.map Node.id ((⟨st.fresh, p.1, p.2, h⟩ : Node K V) :: st.nodes)
        rw [List.map_cons]
        intro hmem
        rcases List.mem_cons.mp hmem with heq2 | hmem
        · have := w.endFresh
          simp only [Node.mk.injEq] at heq2
          omega
        · exact w.endNotIn hmem
      · intro nd hnd
        rcases List.mem_cons.mp hnd with rfl | hnd
        · show st.fresh < st.fresh + 1
          omega
        · have := w.idsFresh nd hnd
          show nd.id < st.fresh + 1
          omega
      · show st.endId < st.fresh + 1
        have := w.endFresh
        omega
      · show (List.map Node.key ((⟨st.fresh, p.1, p.2, h⟩ : Node K V) :: st.nodes)).Nodup
        rw [List.map_cons]
        refine List.nodup_cons.mpr ⟨?_, w.keysNodup⟩
        intro hmem
        obtain ⟨nd, hnd, hkeq⟩ := List.mem_map.mp hmem
        exact hnokey nd hnd hkeq
      · intro a2 ha2
        have ha3 : a2 = setSlot a h (some st.fresh) := by
          injection ha2 with h3
          exact h3.symm
        rw [ha3, setSlot_length]
        exact halen
      · intro hcon
        simp at hcon
      · exact w.mlfNonneg
    · intro st2 heq
      rw [hbase2] at heq
      simp at heq
  | some hd =>
    rw [hslot] at hbase
    have hslot2 : slot st h = some hd := by
      rw [slot_eq_getSlot st a ha]
      exact hslot
    obtain ⟨rs1, r, rs2, hsplit, hh, hid, hnodes, hrun, hrs1, hrs2, hnotin, hsuffix⟩ :=
      WFr.run_decomp hash w h hd hslot2
    have hsuffix2 : suffixFrom st.nodes hd = r.1 :: (r.2 ++ nodesOf rs2) := by
      rw [hsuffix]
      simp [runList]
    have hbase2 : __bucket_insert st p h =
        (match suffixFrom st.nodes hd with
         | [] => (none, st)
         | g :: rest =>
           match runSplice h p.1 g rest with
           | none => (none, st)
           | some gId =>
             (some (⟨st.fresh, p.1, p.2, h⟩ : Node K V),
               { st with
                   nodes := spliceAfter gId (⟨st.fresh, p.1, p.2, h⟩ : Node K V)
                     st.nodes,
                   fresh := st.fresh + 1 })) := hbase
    have hbase3 : __bucket_insert st p h =
        (match runSplice h p.1 r.1 (r.2 ++ nodesOf rs2) with
         | none => (none, st)
         | some gId =>
           (some (⟨st.fresh, p.1, p.2, h⟩ : Node K V),
             { st with
                 nodes := spliceAfter gId (⟨st.fresh, p.1, p.2, h⟩ : Node K V)
                   st.nodes,
                 fresh := st.fresh + 1 })) := by
      rw [hbase2, hsuffix2]
    have hrunspec := runSplice_spec h p.1 r.1 r.2 (nodesOf rs2)
      (fun nd hnd => hrun nd (List.mem_cons_of_mem r.1 hnd)) hrs2
    cases hsplice : runSplice h p.1 r.1 (r.2 ++ nodesOf rs2) with
    | none =>
      rw [hsplice] at hbase3
      constructor
      · intro nw st2 heq
        rw [hbase3] at heq
        simp at heq
      · intro st2 heq
        rw [hbase3] at heq
        injection heq with h1 h2
        refine ⟨h2.symm, ?_⟩
        by_cases hdup : ∃ nd ∈ runList r, nd.key = p.1
        · obtain ⟨nd, hnd, hkeq⟩ := hdup
          refine ⟨nd, ?_, hkeq⟩
          rw [hnodes]
          exact List.mem_append_right _ (List.mem_append_left _ hnd)
        · exfalso
          push_neg at hdup
          have h5 := hrunspec.2 (fun nd hnd => hdup nd hnd)
          rw [hsplice] at h5
          cases h5
    | some gId =>
      rw [hsplice] at hbase3
      have hnodup_run : ∀ nd ∈ runList r, nd.key ≠ p.1 := by
        intro nd hnd hkeq
        have h5 := hrunspec.1 ⟨nd, hnd, hkeq⟩
        rw [hsplice] at h5
        cases h5
      have hnokey : ∀ nd ∈ st.nodes, nd.key ≠ p.1 := by
        intro nd hnd hkeq
        have hho : nd.hash = h := by
          rw [w.hashCorrect nd hnd, hkeq, ← hhdef]
        rw [hnodes] at hnd
        rcases List.mem_append.mp hnd with h6 | h67
        · exact hrs1 nd h6 hho
        · rcases List.mem_append.mp h67 with h6 | h6
          · exact hnodup_run nd h6 hkeq
          · exact hrs2 nd h6 hho
      have hgid : gId = (lastN r.1 r.2).id := by
        have h5 := hrunspec.2 (fun nd hnd => hnodup_run nd hnd)
        exact Option.some.inj (hsplice.symm.trans h5)
      obtain ⟨init, hinit⟩ := lastN_decomp r.1 r.2
      have hA : st.nodes = (nodesOf rs1 ++ init) ++ lastN r.1 r.2 :: nodesOf rs2 := by
        rw [hnodes]
        rw [show runList r = init ++ [lastN r.1 r.2] from hinit]
        simp [List.append_assoc]
      have hids2 : ((nodesOf rs1 ++ init).map Node.id ++
          (lastN r.1 r.2).id :: (nodesOf rs2).map Node.id).Nodup := by
        have h5 := w.idsNodup
        rw [hA] at h5
        simpa [List.map_append] using h5
      have hlastnot : (lastN r.1 r.2).id ∉ (nodesOf rs1 ++ init).map Node.id :=
        (nodup_middle_not_left hids2).1
      have hsplice_nodes :
          spliceAfter gId (⟨st.fresh, p.1, p.2, h⟩ : Node K V) st.nodes =
            (nodesOf rs1 ++ init) ++ lastN r.1 r.2 ::
              (⟨st.fresh, p.1, p.2, h⟩ : Node K V) :: nodesOf rs2 := by
        rw [hgid, hA]
        exact spliceAfter_append _ _ _ _ hlastnot
      have hperm :
          (spliceAfter gId (⟨st.fresh, p.1, p.2, h⟩ : Node K V) st.nodes).Perm
            ((⟨st.fresh, p.1, p.2, h⟩ : Node K V) :: st.nodes) := by
        rw [hsplice_nodes]
        have hre : (nodesOf rs1 ++ init) ++ lastN r.1 r.2 ::
            (⟨st.fresh, p.1, p.2, h⟩ : Node K V) :: nodesOf rs2 =
            ((nodesOf rs1 ++ init) ++ [lastN r.1 r.2]) ++
              (⟨st.fresh, p.1, p.2, h⟩ : Node K V) :: nodesOf rs2 := by
          simp [List.append_assoc]
        have hstn : st.nodes =
            ((nodesOf rs1 ++ init) ++ [lastN r.1 r.2]) ++ nodesOf rs2 := by
          rw [hA]
          simp [List.append_assoc]
        rw [hre, hstn]
        exact List.perm_middle
      constructor
      · intro nw st2 heq
        rw [hbase3] at heq
        injection heq with h1 h2
        injection h1 with h1
        subst h1
        subst h2
        refine ⟨?_, rfl, hnokey, hperm, rfl, rfl, rfl, rfl, rfl⟩
        refine ⟨rs1 ++ (r.1, r.2 ++ [(⟨st.fresh, p.1, p.2, h⟩ : Node K V)]) :: rs2,
          { flat := ?_, hashEq := ?_, hashesNodup := ?_, heads := ?_,
            hashCorrect := ?_, idsNodup := ?_, endNotIn := ?_, idsFresh := ?_,
            endFresh := ?_, keysNodup := ?_, arrLen := ?_, arrNone := ?_,
            mlfNonneg := ?_ }⟩
        · show spliceAfter gId (⟨st.fresh, p.1, p.2, h⟩ : Node K V) st.nodes = _
          rw [hsplice_nodes, nodesOf_append]
          show _ = nodesOf rs1 ++
            (runList (r.1, r.2 ++ [(⟨st.fresh, p.1, p.2, h⟩ : Node K V)]) ++ nodesOf rs2)
          rw [show runList (r.1, r.2 ++ [(⟨st.fresh, p.1, p.2, h⟩ : Node K V)]) =
              (r.1 :: r.2) ++ [(⟨st.fresh, p.1, p.2, h⟩ : Node K V)] from by
            simp [runList]]
          rw [show (r.1 :: r.2) = init ++ [lastN r.1 r.2] from hinit]
          simp [List.append_assoc]
        · intro rr hrr nd hnd
          rcases List.mem_append.mp hrr with hrr1 | hrr2
          · exact w.hashEq rr (by rw [hsplit]; exact List.mem_append_left _ hrr1) nd hnd
          · rcases List.mem_cons.mp hrr2 with rfl | hrr3
            · simp only [runList] at hnd
              rcases List.mem_cons.mp hnd with rfl | hnd2
              · rfl
              · rcases List.mem_append.mp hnd2 with hnd3 | hnd4
                · exact w.hashEq r (by
                    rw [hsplit]
                    exact List.mem_append_right _ (List.mem_cons_self r rs2)) nd
                    (List.mem_cons_of_mem r.1 hnd3)
                · simp only [List.mem_singleton] at hnd4
                  subst hnd4
                  show h = runHash (r.1, _)
                  rw [show runHash (r.1, r.2 ++ [(⟨st.fresh, p.1, p.2, h⟩ : Node K V)]) =
                    runHash r from rfl, hh]
            · exact w.hashEq rr (by
                rw [hsplit]
                exact List.mem_append_right _ (List.mem_cons_of_mem r hrr3)) nd hnd
        · have hmapeq : (rs1 ++ (r.1, r.2 ++
              [(⟨st.fresh, p.1, p.2, h⟩ : Node K V)]) :: rs2).map runHash =
              (rs1 ++ r :: rs2).map runHash := by
            simp [runHash]
          rw [hmapeq, ← hsplit]
          exact w.hashesNodup
        · intro h3
          have h5 := w.heads h3
          rw [hsplit] at h5
          exact h5.trans (headOf_congr_mid rs1 rs2 r
            (r.1, r.2 ++ [(⟨st.fresh, p.1, p.2, h⟩ : Node K V)]) rfl rfl h3).symm
        · intro nd hnd
          rcases List.mem_cons.mp (hperm.mem_iff.mp hnd) with rfl | hnd
          · exact hhdef
          · exact w.hashCorrect nd hnd
        · refine (List.Perm.nodup_iff (hperm.map Node.id)).mpr ?_
          rw [List.map_cons]
          exact List.nodup_cons.mpr ⟨hfreshnot, w.idsNodup⟩
        · intro hmem
          have hmem2 := ((hperm.map Node.id).mem_iff).mp hmem
          rw [List.map_cons] at hmem2
          rcases List.mem_cons.mp hmem2 with heq2 | hmem3
          · have := w.endFresh
            simp only at heq2
            omega
          · exact w.endNotIn hmem3
        · intro nd hnd
          rcases List.mem_cons.mp (hperm.mem_iff.mp hnd) with rfl | hnd
          · show st.fresh < st.fresh + 1
            omega
          · have := w.idsFresh nd hnd
            show nd.id < st.fresh + 1
            omega
        · show st.endId < st.fresh + 1
          have := w.endFresh
          omega
        · refine (List.Perm.nodup_iff (hperm.map Node.key)).mpr ?_
          rw [List.map_cons]
          refine List.nodup_cons.mpr ⟨?_, w.keysNodup⟩
          intro hmem
          obtain ⟨nd, hnd, hkeq⟩ := List.mem_map.mp hmem
          exact hnokey nd hnd hkeq
        · intro a2 ha2
          exact w.arrLen a2 ha2
        · exact w.arrNone
        · exact w.mlfNonneg
      · intro st2 heq
        rw [hbase3] at heq
        simp at heq

/-! ### Preservation of the invariant by rehashing -/

/-- A node as relinked by `__rehash` against bucket count `n`: same cell,
hash recomputed. -/
def reh (n : Nat) (nd : Node K V) : Node K V :=
  ⟨nd.id, nd.key, nd.val, __constrain_hash (hash nd.key) n⟩

lemma not_mem_runHash_of_headOf_none (rsA : List (Node K V × List (Node K V)))
    (h : Nat) (hnone : headOf rsA h = none) : h ∉ rsA.map runHash := by
  intro hmem
  obtain ⟨r, hr, hrh⟩ := List.mem_map.mp hmem
  exact (headOf_eq_none_iff rsA h).mp hnone r hr hrh

/-- The relink loop of `__rehash` preserves the run decomposition of the
accumulator and produces a permutation of the relinked input. -/
lemma rehashLoop_spec (n : Nat) (hn : 0 < n) :
    ∀ (rem ns : List (Node K V)) (a : List (Option Nat))
      (runsAcc : List (Node K V × List (Node K V))),
      ns = nodesOf runsAcc →
      (∀ r ∈ runsAcc, ∀ nd ∈ runList r, nd.hash = runHash r) →
      (runsAcc.map runHash).Nodup →
      (∀ h, getSlot a h = headOf runsAcc h) →
      a.length = n →
      (rem.map Node.id ++ ns.map Node.id).Nodup →
      ∃ runsAcc2,
        (rehashLoop hash n rem (ns, a)).1 = nodesOf runsAcc2 ∧
        (∀ r ∈ runsAcc2, ∀ nd ∈ runList r, nd.hash = runHash r) ∧
        (runsAcc2.map runHash).Nodup ∧
        (∀ h, getSlot (rehashLoop hash n rem (ns, a)).2 h = headOf runsAcc2 h) ∧
        (rehashLoop hash n rem (ns, a)).2.length = n ∧
        (rehashLoop hash n rem (ns, a)).1.Perm (rem.map (reh hash n) ++ ns) := by
  intro rem
  induction rem with
  | nil =>
    intro ns a runsAcc hflat hhashEq hnodup hheads halen hids
    refine ⟨runsAcc, hflat, hhashEq, hnodup, hheads, halen, ?_⟩
    show ns.Perm (List.map (reh hash n) [] ++ ns)
    simp
  | cons i rem ih =>
    intro ns a runsAcc hflat hhashEq hnodup hheads halen hids
    have hstep : rehashLoop hash n (i :: rem) (ns, a) =
        (match getSlot a (__constrain_hash (hash i.key) n) with
         | none => rehashLoop hash n rem
             ((⟨i.id, i.key, i.val, __constrain_hash (hash i.key) n⟩ : Node K V) :: ns,
              setSlot a (__constrain_hash (hash i.key) n) (some i.id))
         | some hd => rehashLoop hash n rem
             (spliceAfter hd
               (⟨i.id, i.key, i.val, __constrain_hash (hash i.key) n⟩ : Node K V) ns,
              a)) := rfl
    have hlt : __constrain_hash (hash i.key) n < a.length := by
      rw [halen]
      exact __constrain_hash_lt (hash i.key) n hn
    cases hslot : getSlot a (__constrain_hash (hash i.key) n) with
    | none =>
      rw [hslot] at hstep
      have hloop : rehashLoop hash n (i :: rem) (ns, a) = rehashLoop hash n rem
          ((⟨i.id, i.key, i.val, __constrain_hash (hash i.key) n⟩ : Node K V) :: ns,
           setSlot a (__constrain_hash (hash i.key) n) (some i.id)) := hstep
      rw [hloop]
      have hnoth : __constrain_hash (hash i.key) n ∉ runsAcc.map runHash :=
        not_mem_runHash_of_headOf_none runsAcc _ (by rw [← hheads]; exact hslot)
      have hids2 : (rem.map Node.id ++
          ((⟨i.id, i.key, i.val, __constrain_hash (hash i.key) n⟩ : Node K V) :: ns).map
            Node.id).Nodup := by
        rw [List.map_cons]
        refine (List.Perm.nodup_iff ?_).mpr hids
        exact List.perm_middle
      obtain ⟨runsAcc2, hf2, he2, hn2, hh2, hl2, hp2⟩ := ih
        ((⟨i.id, i.key, i.val, __constrain_hash (hash i.key) n⟩ : Node K V) :: ns)
        (setSlot a (__constrain_hash (hash i.key) n) (some i.id))
        (((⟨i.id, i.key, i.val, __constrain_hash (hash i.key) n⟩ : Node K V),
          ([] : List (Node K V))) :: runsAcc)
        (by rw [hflat]; rfl)
        (by
          intro r hr nd hnd
          rcases List.mem_cons.mp hr with rfl | hr
          · simp only [runList] at hnd
            rcases List.mem_cons.mp hnd with rfl | hnd
            · rfl
            · simp at hnd
          · exact hhashEq r hr nd hnd)
        (by
          rw [List.map_cons]
          exact List.nodup_cons.mpr ⟨hnoth, hnodup⟩)
        (by
          intro h3
          by_cases hcase : h3 = __constrain_hash (hash i.key) n
          · rw [hcase, getSlot_setSlot_self a (__constrain_hash (hash i.key) n)
              (some i.id) hlt]
            simp [headOf, runHash]
          · rw [getSlot_setSlot_ne a _ h3 (some i.id) (fun hcon => hcase hcon.symm)]
            rw [hheads h3]
            simp only [headOf, runHash]
            rw [if_neg (fun hcon => hcase
              ((show __constrain_hash (hash i.key) n = h3 from hcon).symm))]
          )
        (by rw [setSlot_length, halen])
        hids2
      refine ⟨runsAcc2, hf2, he2, hn2, hh2, hl2, ?_⟩
      refine hp2.trans ?_
      have h5 : (List.map (reh hash n) rem ++
          (⟨i.id, i.key, i.val, __constrain_hash (hash i.key) n⟩ : Node K V) :: ns).Perm
          ((⟨i.id, i.key, i.val, __constrain_hash (hash i.key) n⟩ : Node K V) ::
            (List.map (reh hash n) rem ++ ns)) := List.perm_middle
      refine h5.trans ?_
      rw [List.map_cons]
      rfl
    | some hd =>
      rw [hslot] at hstep
      have hloop : rehashLoop hash n (i :: rem) (ns, a) = rehashLoop hash n rem
          (spliceAfter hd
            (⟨i.id, i.key, i.val, __constrain_hash (hash i.key) n⟩ : Node K V) ns,
           a) := hstep
      rw [hloop]
      obtain ⟨rs1, r, rs2, hsplit, hh, hid, hfirst⟩ :=
        headOf_decomp runsAcc _ hd (by rw [← hheads]; exact hslot)
      have hnsdec : ns = nodesOf rs1 ++ r.1 :: (r.2 ++ nodesOf rs2) := by
        rw [hflat, hsplit, nodesOf_append]
        simp [nodesOf, runList, List.append_assoc]
      have hnsids : (ns.map Node.id).Nodup := hids.of_append_right
      have hmid : ((nodesOf rs1).map Node.id ++
          r.1.id :: ((r.2 ++ nodesOf rs2).map Node.id)).Nodup := by
        have h5 := hnsids
        rw [hnsdec] at h5
        simpa [List.map_append] using h5
      have hnotin2 : r.1.id ∉ (nodesOf rs1).map Node.id :=
        (nodup_middle_not_left hmid).1
      have hsplice2 : spliceAfter hd
          (⟨i.id, i.key, i.val, __constrain_hash (hash i.key) n⟩ : Node K V) ns =
          nodesOf rs1 ++ r.1 ::
            (⟨i.id, i.key, i.val, __constrain_hash (hash i.key) n⟩ : Node K V) ::
            (r.2 ++ nodesOf rs2) := by
        rw [hnsdec, ← hid]
        exact spliceAfter_append _ _ _ _ hnotin2
      have hpermstep : (spliceAfter hd
          (⟨i.id, i.key, i.val, __constrain_hash (hash i.key) n⟩ : Node K V) ns).Perm
          ((⟨i.id, i.key, i.val, __constrain_hash (hash i.key) n⟩ : Node K V) :: ns) := by
        rw [hsplice2]
        have hre : nodesOf rs1 ++ r.1 ::
            (⟨i.id, i.key, i.val, __constrain_hash (hash i.key) n⟩ : Node K V) ::
            (r.2 ++ nodesOf rs2) =
            (nodesOf rs1 ++ [r.1]) ++
              (⟨i.id, i.key, i.val, __constrain_hash (hash i.key) n⟩ : Node K V) ::
              (r.2 ++ nodesOf rs2) := by
          simp [List.append_assoc]
        have hns2 : ns = (nodesOf rs1 ++ [r.1]) ++ (r.2 ++ nodesOf rs2) := by
          rw [hnsdec]
          simp [List.append_assoc]
        rw [hre, hns2]
        exact List.perm_middle
      have hids3 : (rem.map Node.id ++
          (spliceAfter hd
            (⟨i.id, i.key, i.val, __constrain_hash (hash i.key) n⟩ : Node K V)
            ns).map Node.id).Nodup := by
        refine (List.Perm.nodup_iff ((hpermstep.map Node.id).append_left
          (rem.map Node.id))).mpr ?_
        rw [List.map_cons]
        refine (List.Perm.nodup_iff ?_).mpr hids
        exact List.perm_middle
      obtain ⟨runsAcc2, hf2, he2, hn2, hh2, hl2, hp2⟩ := ih
        (spliceAfter hd
          (⟨i.id, i.key, i.val, __constrain_hash (hash i.key) n⟩ : Node K V) ns)
        a
        (rs1 ++ (r.1,
          (⟨i.id, i.key, i.val, __constrain_hash (hash i.key) n⟩ : Node K V) :: r.2) :: rs2)
        (by
          rw [hsplice2, nodesOf_append]
          simp [nodesOf, runList, List.append_assoc])
        (by
          intro rr hrr nd hnd
          rcases List.mem_append.mp hrr with hrr1 | hrr2
          · exact hhashEq rr (by rw [hsplit]; exact List.mem_append_left _ hrr1) nd hnd
          · rcases List.mem_cons.mp hrr2 with rfl | hrr3
            · simp only [runList] at hnd
              rcases List.mem_cons.mp hnd with rfl | hnd2
              · rfl
              · rcases List.mem_cons.mp hnd2 with rfl | hnd3
                · show __constrain_hash (hash i.key) n = runHash (r.1, _)
                  rw [show runHash (r.1,
                    (⟨i.id, i.key, i.val, __constrain_hash (hash i.key) n⟩ : Node K V)
                      :: r.2) = runHash r from rfl, hh]
                · exact hhashEq r (by
                    rw [hsplit]
                    exact List.mem_append_right _ (List.mem_cons_self r rs2)) nd
                    (List.mem_cons_of_mem r.1 hnd3)
            · exact hhashEq rr (by
                rw [hsplit]
                exact List.mem_append_right _ (List.mem_cons_of_mem r hrr3)) nd hnd)
        (by
          have hmapeq : ((rs1 ++ (r.1,
              (⟨i.id, i.key, i.val, __constrain_hash (hash i.key) n⟩ : Node K V)
                :: r.2) :: rs2).map runHash) = (rs1 ++ r :: rs2).map runHash := by
            simp [runHash]
          rw [hmapeq, ← hsplit]
          exact hnodup)
        (by
          intro h3
          rw [hheads h3, hsplit]
          exact (headOf_congr_mid rs1 rs2 r (r.1,
            (⟨i.id, i.key, i.val, __constrain_hash (hash i.key) n⟩ : Node K V) :: r.2)
            rfl rfl h3).symm)
        halen
        hids3
      refine ⟨runsAcc2, hf2, he2, hn2, hh2, hl2, ?_⟩
      refine hp2.trans ?_
      refine ((hpermstep.append_left (rem.map (reh hash n))).trans ?_)
      have h5 : (List.map (reh hash n) rem ++
          (⟨i.id, i.key, i.val, __constrain_hash (hash i.key) n⟩ : Node K V) :: ns).Perm
          ((⟨i.id, i.key, i.val, __constrain_hash (hash i.key) n⟩ : Node K V) ::
            (List.map (reh hash n) rem ++ ns)) := List.perm_middle
      refine h5.trans ?_
      rw [List.map_cons]
      rfl

/-- `__rehash` preserves the invariant (for a positive bucket count, or
trivially on an empty container), and re-threads exactly the same cells with
recomputed hashes. -/
lemma rehash_spec {st : Mumap K V} {runs : List (Node K V × List (Node K V))}
    (w : WFr hash st runs) (n : Nat) (hn : 0 < n ∨ st.nodes = []) :
    WFc hash (__rehash hash st n) ∧
    (__rehash hash st n).nodes.Perm (st.nodes.map (reh hash n)) := by
  rcases hn with hn | hnil
  · have hids : (st.nodes.map Node.id ++ (([] : List (Node K V)).map Node.id)).Nodup := by
      simpa using w.idsNodup
    obtain ⟨runsAcc2, hf2, he2, hn2, hh2, hl2, hp2⟩ := rehashLoop_spec hash n hn
      st.nodes [] (List.replicate n none) []
      rfl (by simp) (by simp) (fun h => by rw [getSlot_replicate]; rfl) (by simp) hids
    constructor
    · refine ⟨runsAcc2,
        { flat := hf2, hashEq := he2, hashesNodup := hn2, heads := ?_,
          hashCorrect := ?_, idsNodup := ?_, endNotIn := ?_, idsFresh := ?_,
          endFresh := w.endFresh, keysNodup := ?_, arrLen := ?_, arrNone := ?_,
          mlfNonneg := w.mlfNonneg }⟩
      · intro h3
        show getSlot (rehashLoop hash n st.nodes ([], List.replicate n none)).2 h3 = _
        exact hh2 h3
      · intro nd hnd
        have hnd2 := hp2.mem_iff.mp hnd
        rw [List.append_nil] at hnd2
        obtain ⟨nd0, hnd0, hredef⟩ := List.mem_map.mp hnd2
        rw [← hredef]
        rfl
      · refine (List.Perm.nodup_iff (hp2.map Node.id)).mpr ?_
        rw [List.append_nil]
        have hcomp : (st.nodes.map (reh hash n)).map Node.id = st.nodes.map Node.id := by
          rw [List.map_map]
          rfl
        rw [hcomp]
        exact w.idsNodup
      · intro hmem
        have hmem2 := (hp2.map Node.id).mem_iff.mp hmem
        rw [List.append_nil, List.map_map] at hmem2
        exact w.endNotIn (by
          have : (Node.id ∘ reh hash n) = (Node.id : Node K V → Nat) := rfl
          rw [this] at hmem2
          exact hmem2)
      · intro nd hnd
        have hnd2 := hp2.mem_iff.mp hnd
        rw [List.append_nil] at hnd2
        obtain ⟨nd0, hnd0, hredef⟩ := List.mem_map.mp hnd2
        have := w.idsFresh nd0 hnd0
        rw [← hredef]
        exact this
      · refine (List.Perm.nodup_iff (hp2.map Node.key)).mpr ?_
        rw [List.append_nil, List.map_map]
        have hcomp : (Node.key ∘ reh hash n) = (Node.key : Node K V → K) := rfl
        rw [hcomp]
        exact w.keysNodup
      · intro a2 ha2
        have ha3 : a2 = (rehashLoop hash n st.nodes ([], List.replicate n none)).2 := by
          injection ha2 with h5
          exact h5.symm
        rw [ha3]
        exact hl2
      · intro hcon
        simp only [__rehash] at hcon
        cases hcon
    · have hperm := hp2
      rw [List.append_nil] at hperm
      exact hperm
  · have hnodes0 : (__rehash hash st n).nodes = [] := by
      show (rehashLoop hash n st.nodes ([], List.replicate n none)).1 = []
      rw [hnil]
      rfl
    have harr0 : (__rehash hash st n).array =
        some (rehashLoop hash n st.nodes ([], List.replicate n none)).2 := rfl
    have harr1 : (rehashLoop hash n st.nodes ([], List.replicate n none)).2 =
        List.replicate n none := by
      rw [hnil]
      rfl
    constructor
    · refine ⟨[],
        { flat := hnodes0, hashEq := by simp, hashesNodup := by simp, heads := ?_,
          hashCorrect := ?_, idsNodup := ?_, endNotIn := ?_, idsFresh := ?_,
          endFresh := w.endFresh, keysNodup := ?_, arrLen := ?_, arrNone := ?_,
          mlfNonneg := w.mlfNonneg }⟩
      · intro h3
        rw [slot_eq_getSlot (__rehash hash st n) (List.replicate n none)
          (by rw [harr0, harr1]) h3, getSlot_replicate]
        rfl
      · intro nd hnd
        rw [hnodes0] at hnd
        simp at hnd
      · rw [hnodes0]
        simp
      · rw [hnodes0]
        simp
      · intro nd hnd
        rw [hnodes0] at hnd
        simp at hnd
      · rw [hnodes0]
        simp
      · intro a2 ha2
        rw [harr0] at ha2
        have ha3 : a2 = (rehashLoop hash n st.nodes ([], List.replicate n none)).2 := by
          injection ha2 with h5
          exact h5.symm
        rw [ha3, harr1]
        simp
        rfl
      · intro hcon
        simp only [__rehash] at hcon
        cases hcon
    · rw [hnodes0, hnil]
      simp

/-! ### Behaviour of the public insert -/

lemma WFr_count_irrel {st : Mumap K V} {runs : List (Node K V × List (Node K V))}
    (w : WFr hash st runs) (c : Nat) : WFr hash { st with count := c } runs :=
  { flat := w.flat, hashEq := w.hashEq, hashesNodup := w.hashesNodup,
    heads := w.heads, hashCorrect := w.hashCorrect, idsNodup := w.idsNodup,
    endNotIn := w.endNotIn, idsFresh := w.idsFresh, endFresh := w.endFresh,
    keysNodup := w.keysNodup, arrLen := w.arrLen, arrNone := w.arrNone,
    mlfNonneg := w.mlfNonneg }

lemma growSize_pos (c : Nat) (m : ℚ) : 0 < growSize c m := by
  unfold growSize
  refine lt_of_lt_of_le ?_ (le_max_left _ _)
  by_cases hb : __is_hash_power2 c = true
  · rw [if_pos hb]
    have h2 : 2 < c := by
      unfold __is_hash_power2 at hb
      simp only [Bool.and_eq_true, decide_eq_true_eq] at hb
      exact hb.1
    omega
  · rw [if_neg hb]
    omega

/-- The shared post-growth part of `insert`: behaviour of the bucket
insertion and the count update, stated against both the state it runs on
(`st1`) and the state the call started from (`st`). -/
lemma insert_spec_aux {st st1 : Mumap K V} (hwf1 : WF hash st1) (p : K × V)
    (hsz1 : 0 < st1.size)
    (hins : MUM.insert hash st p =
      (match __bucket_insert st1 p (__constrain_hash (hash p.1) st1.size) with
       | (some nw, st2) => (some nw, true, { st2 with count := st2.count + 1 })
       | (none, st2) => (none, false, st2)))
    (hitems1 : (items st1).Perm (items st))
    (hkeys1 : ∀ k2, (∃ nd ∈ st1.nodes, nd.key = k2) ↔ ∃ nd ∈ st.nodes, nd.key = k2) :
    WF hash (MUM.insert hash st p).2.2 ∧
    ((MUM.insert hash st p).2.1 = true →
      (items (MUM.insert hash st p).2.2).Perm (p :: items st) ∧
      (∀ nd ∈ st.nodes, nd.key ≠ p.1) ∧
      ∃ nd ∈ (MUM.insert hash st p).2.2.nodes, nd.key = p.1 ∧ nd.val = p.2) ∧
    ((MUM.insert hash st p).2.1 = false →
      (items (MUM.insert hash st p).2.2).Perm (items st) ∧
      (MUM.insert hash st p).1 = none) := by
  obtain ⟨⟨runs1, w1⟩, hcount1⟩ := hwf1
  have hbspec := bucket_insert_spec hash w1 p hsz1
  rw [hins]
  cases hbi : __bucket_insert st1 p (__constrain_hash (hash p.1) st1.size) with
  | mk o st2 =>
    cases o with
    | some nw =>
      obtain ⟨hwfc2, hnw, habsent1, hperm2, hc2, hs2, hm2, he2, hf2⟩ :=
        hbspec.1 nw st2 hbi
      have habsent : ∀ nd ∈ st.nodes, nd.key ≠ p.1 := by
        intro nd hnd hkeq
        obtain ⟨nd1, hnd1, hk1⟩ := (hkeys1 p.1).mpr ⟨nd, hnd, hkeq⟩
        exact habsent1 nd1 hnd1 hk1
      refine ⟨?_, ?_, ?_⟩
      · obtain ⟨runs2, w2⟩ := hwfc2
        refine ⟨⟨runs2, WFr_count_irrel hash w2 _⟩, ?_⟩
        show st2.count + 1 = st2.nodes.length
        rw [hperm2.length_eq, List.length_cons, hc2, hcount1]
      · intro _
        refine ⟨?_, habsent, ?_⟩
        · show (items st2).Perm (p :: items st)
          unfold items
          refine (hperm2.map _).trans ?_
          rw [List.map_cons]
          have hh1 : ((nw.key, nw.val) : K × V) = p := by
            rw [hnw]
          rw [hh1]
          exact (hitems1.cons p)
        · refine ⟨nw, ?_, ?_, ?_⟩
          · show nw ∈ st2.nodes
            exact hperm2.mem_iff.mpr (List.mem_cons_self nw st1.nodes)
          · rw [hnw]
          · rw [hnw]
      · intro hcon
        cases hcon
    | none =>
      obtain ⟨hst2, hdup⟩ := hbspec.2 st2 hbi
      subst hst2
      refine ⟨⟨⟨runs1, w1⟩, hcount1⟩, ?_, ?_⟩
      · intro hcon
        cases hcon
      · intro _
        exact ⟨hitems1, rfl⟩

/-- Full behaviour of the public `insert`: the invariant is preserved, a
successful insert adds exactly the new pair to a container that did not
hold the key, and a duplicate insert keeps the stored pairs and returns the
end iterator. -/
lemma insert_spec {st : Mumap K V} (hwf : WF hash st) (p : K × V) :
    WF hash (MUM.insert hash st p).2.2 ∧
    ((MUM.insert hash st p).2.1 = true →
      (items (MUM.insert hash st p).2.2).Perm (p :: items st) ∧
      (∀ nd ∈ st.nodes, nd.key ≠ p.1) ∧
      ∃ nd ∈ (MUM.insert hash st p).2.2.nodes, nd.key = p.1 ∧ nd.val = p.2) ∧
    ((MUM.insert hash st p).2.1 = false →
      (items (MUM.insert hash st p).2.2).Perm (items st) ∧
      (MUM.insert hash st p).1 = none) := by
  obtain ⟨⟨runs, w⟩, hcount⟩ := hwf
  cases hg : mulMlfLt st.size st.mlf (st.count + 1) with
  | true =>
    obtain ⟨hwfc1, hperm1⟩ := rehash_spec hash w (growSize st.count st.mlf)
      (Or.inl (growSize_pos st.count st.mlf))
    obtain ⟨runs1, w1⟩ := hwfc1
    have hlen1 : (__rehash hash st (growSize st.count st.mlf)).nodes.length =
        st.nodes.length := by
      rw [hperm1.length_eq, List.length_map]
    refine insert_spec_aux hash ⟨⟨runs1, w1⟩, ?_⟩ p ?_ ?_ ?_ ?_
    · show st.count = _
      rw [hlen1, hcount]
    · show 0 < growSize st.count st.mlf
      exact growSize_pos st.count st.mlf
    · unfold MUM.insert
      rw [hg]
      rfl
    · unfold items
      refine (hperm1.map _).trans ?_
      rw [List.map_map]
      rfl
    · intro k2
      constructor
      · rintro ⟨nd, hnd, hkeq⟩
        obtain ⟨nd0, hnd0, hredef⟩ := List.mem_map.mp (hperm1.mem_iff.mp hnd)
        refine ⟨nd0, hnd0, ?_⟩
        rw [show nd0.key = (reh hash (growSize st.count st.mlf) nd0).key from rfl,
          hredef, hkeq]
      · rintro ⟨nd, hnd, hkeq⟩
        refine ⟨reh hash (growSize st.count st.mlf) nd, ?_, hkeq⟩
        exact hperm1.mem_iff.mpr (List.mem_map_of_mem _ hnd)
  | false =>
    have hsz : 0 < st.size := by
      have hle := (mulMlfLt_eq_false_iff st.size (st.count + 1) st.mlf).mp hg
      by_contra hc
      push_neg at hc
      have h0 : st.size = 0 := by omega
      rw [h0] at hle
      push_cast at hle
      rw [zero_mul] at hle
      have hnn : (0 : ℚ) ≤ (st.count : ℚ) := by positivity
      linarith
    refine insert_spec_aux hash ⟨⟨runs, w⟩, hcount⟩ p hsz ?_ (List.Perm.refl _)
      (fun k2 => Iff.rfl)
    unfold MUM.insert
    rw [hg]
    rfl

/-! ### Behaviour of the public erase -/

lemma headOf_cons_ne (r : Node K V × List (Node K V))
    (rs : List (Node K V × List (Node K V))) (h2 : Nat) (hne : runHash r ≠ h2) :
    headOf (r :: rs) h2 = headOf rs h2 := by
  show (if runHash r = h2 then some r.1.id else headOf rs h2) = headOf rs h2
  rw [if_neg hne]

lemma headOf_append_congr (rs1 X Y : List (Node K V × List (Node K V))) (h2 : Nat)
    (hxy : headOf X h2 = headOf Y h2) :
    headOf (rs1 ++ X) h2 = headOf (rs1 ++ Y) h2 := by
  cases hr : headOf rs1 h2 with
  | some x =>
    rw [headOf_append_some rs1 X h2 x hr, headOf_append_some rs1 Y h2 x hr]
  | none =>
    rw [headOf_append_none rs1 X h2 hr, headOf_append_none rs1 Y h2 hr, hxy]

lemma headOf_none_of_nodes (rs : List (Node K V × List (Node K V))) (h2 : Nat)
    (hall : ∀ nd ∈ nodesOf rs, nd.hash ≠ h2) : headOf rs h2 = none := by
  rw [headOf_eq_none_iff]
  intro r hr
  exact hall r.1 ((mem_nodesOf rs r.1).mpr ⟨r, hr, List.mem_cons_self _ _⟩)

lemma hashes_disjoint_left {rs1 rs2 : List (Node K V × List (Node K V))}
    {r : Node K V × List (Node K V)}
    (hnd : (((rs1 ++ r :: rs2).map runHash)).Nodup) :
    ∀ q ∈ rs1, runHash q ≠ runHash r := by
  intro q hq heq
  rw [List.map_append, List.map_cons] at hnd
  exact (nodup_middle_not_left hnd).1 (heq ▸ List.mem_map_of_mem runHash hq)

/-- Full behaviour of `erase`: the invariant is preserved; a successful
erase removes exactly one pair carrying the requested key, decrements the
count, and leaves no element with that key behind; a failed erase returns
the state untouched and certifies the key was absent. -/
lemma erase_spec {st : Mumap K V} (hwf : WF hash st) (k : K) :
    WF hash (MUM.erase hash st k).2 ∧
    ((MUM.erase hash st k).1 = true →
      1 ≤ st.count ∧ (MUM.erase hash st k).2.count = st.count - 1 ∧
      (∀ nd ∈ (MUM.erase hash st k).2.nodes, nd.key ≠ k) ∧
      ∃ v, (items st).Perm ((k, v) :: items (MUM.erase hash st k).2)) ∧
    ((MUM.erase hash st k).1 = false →
      (MUM.erase hash st k).2 = st ∧ ∀ nd ∈ st.nodes, nd.key ≠ k) := by
  obtain ⟨⟨runs, w⟩, hcount⟩ := hwf
  unfold MUM.erase
  rcases st with ⟨sz, c, m, a0, ns, e, f⟩
  cases a0 with
  | none =>
    refine ⟨⟨⟨runs, w⟩, hcount⟩, (fun hcon => by cases hcon), fun _ => ⟨rfl, ?_⟩⟩
    have hnil : ns = [] := (WFr.nodes_nil_of_array_none hash w rfl).1
    rw [hnil]
    intro nd hnd
    cases hnd
  | some a =>
    simp only
    cases hslot : getSlot a (__constrain_hash (hash k) sz) with
    | none =>
      have hfind : find hash (⟨sz, c, m, some a, ns, e, f⟩ : Mumap K V) k = none :=
        find_eq_none_of_slot_none hash _ _ hslot
      exact ⟨⟨⟨runs, w⟩, hcount⟩, (fun hcon => by cases hcon),
        fun _ => ⟨rfl, (find_mem hash w k).2 hfind⟩⟩
    | some hd =>
      simp only
      cases hscan : scanRun (__constrain_hash (hash k) sz) k (suffixFrom ns hd) with
      | none =>
        have hfind : find hash (⟨sz, c, m, some a, ns, e, f⟩ : Mumap K V) k = none := by
          rw [find_eq]
          have hs : slot (⟨sz, c, m, some a, ns, e, f⟩ : Mumap K V)
              (__constrain_hash (hash k)
                (⟨sz, c, m, some a, ns, e, f⟩ : Mumap K V).size) = some hd := hslot
          rw [hs]
          exact hscan
        exact ⟨⟨⟨runs, w⟩, hcount⟩, (fun hcon => by cases hcon),
          fun _ => ⟨rfl, (find_mem hash w k).2 hfind⟩⟩
      | some g =>
        simp only
        have hslot' : slot (⟨sz, c, m, some a, ns, e, f⟩ : Mumap K V)
            (__constrain_hash (hash k) sz) = some hd := hslot
        obtain ⟨rs1, r, rs2, hsplit, hh, hid, hnodes, hrun, hrs1, hrs2, hnotin, hsuffix⟩ :=
          WFr.run_decomp hash w (__constrain_hash (hash k) sz) hd hslot'
        have hnodes' : ns = nodesOf rs1 ++ (runList r ++ nodesOf rs2) := hnodes
        have hsuffix' : suffixFrom ns hd = runList r ++ nodesOf rs2 := hsuffix
        rw [hsuffix'] at hscan
        obtain ⟨hgrun, hgkey⟩ :=
          (scanRun_spec (__constrain_hash (hash k) sz) k (runList r) (nodesOf rs2)
            hrun hrs2).2 g hscan
        obtain ⟨u1, u2, hru⟩ := List.append_of_mem hgrun
        have hA : ns = (nodesOf rs1 ++ u1) ++ g :: (u2 ++ nodesOf rs2) := by
          rw [hnodes', hru]
          simp [List.append_assoc]
        have hidnodup : (ns.map Node.id).Nodup := w.idsNodup
        have hmapA : (ns.map Node.id) =
            ((nodesOf rs1 ++ u1).map Node.id) ++
              g.id :: ((u2 ++ nodesOf rs2).map Node.id) := by
          rw [hA, List.map_append, List.map_cons]
        have hidsA : g.id ∉ (nodesOf rs1 ++ u1).map Node.id ∧
            g.id ∉ (u2 ++ nodesOf rs2).map Node.id := by
          apply nodup_middle_not_left
          rw [← hmapA]
          exact hidnodup
        have hsucc : succOf g.id ns = (u2 ++ nodesOf rs2).head? := by
          rw [hA]
          exact succOf_append _ _ g hidsA.1
        have hAsub : ∀ nd ∈ nodesOf rs1 ++ u1, nd ∈ ns := by
          intro nd hnd
          rw [hA]
          exact List.mem_append_left _ hnd
        have hgmem : g ∈ ns := by
          rw [hA]
          exact List.mem_append_right _ (List.mem_cons_self _ _)
        have hcount1 : 1 ≤ c := by
          rw [show c = ns.length from hcount, hA]
          rw [List.length_append, List.length_cons]
          omega
        have hkeysnd : ((ns.map Node.key)).Nodup := w.keysNodup
        have hmapK : (ns.map Node.key) =
            ((nodesOf rs1 ++ u1).map Node.key) ++
              k :: ((u2 ++ nodesOf rs2).map Node.key) := by
          rw [hA, List.map_append, List.map_cons, hgkey]
        have hkeysA : k ∉ (nodesOf rs1 ++ u1).map Node.key ∧
            k ∉ (u2 ++ nodesOf rs2).map Node.key := by
          apply nodup_middle_not_left
          rw [← hmapK]
          exact hkeysnd
        have hlenh : __constrain_hash (hash k) sz < a.length :=
          lt_length_of_getSlot_eq_some a _ hd hslot
        cases u2 with
        | cons s' u2' =>
          have hsucc2 : succOf g.id ns = some s' := by rw [hsucc]; rfl
          rw [hsucc2]
          simp only
          have hs'run : s' ∈ runList r := by
            rw [hru]
            exact List.mem_append_right _ (List.mem_cons_of_mem _ (List.mem_cons_self _ _))
          have hs'h : s'.hash = __constrain_hash (hash k) sz := hrun s' hs'run
          have hBsub : ∀ nd ∈ s' :: (u2' ++ nodesOf rs2), nd ∈ ns := by
            intro nd hnd
            rw [hA]
            exact List.mem_append_right _ (List.mem_cons_of_mem _ hnd)
          have hs'mem : s' ∈ ns := hBsub s' (List.mem_cons_self _ _)
          have hmapA2 : ns.map Node.id = (nodesOf rs1 ++ u1).map Node.id ++
              g.id :: s'.id :: (u2' ++ nodesOf rs2).map Node.id := by
            rw [hmapA, List.cons_append, List.map_cons]
          have hmapK2 : ns.map Node.key = (nodesOf rs1 ++ u1).map Node.key ++
              k :: s'.key :: (u2' ++ nodesOf rs2).map Node.key := by
            rw [hmapK, List.cons_append, List.map_cons]
          have hidsnew : ((nodesOf rs1 ++ u1).map Node.id ++
              g.id :: (u2' ++ nodesOf rs2).map Node.id).Nodup := by
            have hnd2 := hidnodup
            rw [hmapA2] at hnd2
            refine hnd2.sublist ?_
            exact ((List.sublist_cons_self s'.id _).cons₂ g.id).append_left _
          have hkeysnew : ((nodesOf rs1 ++ u1).map Node.key ++
              s'.key :: (u2' ++ nodesOf rs2).map Node.key).Nodup := by
            have hnd2 := hkeysnd
            rw [hmapK2] at hnd2
            refine hnd2.sublist ?_
            exact (List.sublist_cons_self k _).append_left _
          have hidsnew_sub : ∀ i, i ∈ (nodesOf rs1 ++ u1).map Node.id ++
              g.id :: (u2' ++ nodesOf rs2).map Node.id → i ∈ ns.map Node.id := by
            intro i hi
            rw [hmapA2]
            exact (((List.sublist_cons_self s'.id _).cons₂ g.id).append_left _).subset hi
          rw [hs'h]
          simp only [eq_self_iff_true, if_true]
          cases u1 with
          | nil =>
            have hru2 : r.1 :: r.2 = g :: s' :: u2' := hru
            have hr1g : r.1 = g := by injection hru2
            have hgid : hd = g.id := by rw [← hid, hr1g]
            rw [if_pos hgid]
            have hget1 : getSlot (setSlot a (__constrain_hash (hash k) sz) (some s'.id))
                (__constrain_hash (hash k) sz) = some s'.id :=
              getSlot_setSlot_self a _ _ hlenh
            rw [hget1]
            simp only [eq_self_iff_true, if_true]
            have hstep : eraseStep g.id ns =
                (nodesOf rs1 ++ []) ++
                  (⟨g.id, s'.key, s'.val, s'.hash⟩ : Node K V) :: (u2' ++ nodesOf rs2) := by
              rw [hA]
              exact eraseStep_append_cons _ _ g s' hidsA.1
            rw [hstep]
            have hlens : c = ns.length := hcount
            refine ⟨⟨⟨rs1 ++ ((⟨g.id, s'.key, s'.val, s'.hash⟩ : Node K V), u2') :: rs2, ?_⟩, ?_⟩,
              fun _ => ⟨hcount1, trivial, ?_, ?_⟩, (fun hcon => by cases hcon)⟩
            · -- the WFr instance
              refine ⟨?_, ?_, ?_, ?_, ?_, ?_, ?_, ?_, w.endFresh, ?_, ?_, ?_, w.mlfNonneg⟩
              · -- flat
                show (nodesOf rs1 ++ []) ++
                    (⟨g.id, s'.key, s'.val, s'.hash⟩ : Node K V) :: (u2' ++ nodesOf rs2) =
                  nodesOf (rs1 ++ ((⟨g.id, s'.key, s'.val, s'.hash⟩ : Node K V), u2') :: rs2)
                rw [nodesOf_append]
                simp [nodesOf, runList, List.append_assoc]
              · -- hashEq
                intro r' hr' nd hnd
                rcases List.mem_append.mp hr' with h1 | h2
                · exact w.hashEq r' (by rw [hsplit]; exact List.mem_append_left _ h1) nd hnd
                · rcases List.mem_cons.mp h2 with rfl | h3
                  · rcases List.mem_cons.mp hnd with rfl | h4
                    · rfl
                    · show nd.hash = s'.hash
                      rw [hs'h]
                      exact hrun nd (by
                        rw [hru]
                        exact List.mem_append_right _
                          (List.mem_cons_of_mem _ (List.mem_cons_of_mem _ h4)))
                  · exact w.hashEq r'
                      (by rw [hsplit]; exact List.mem_append_right _ (List.mem_cons_of_mem _ h3))
                      nd hnd
              · -- hashesNodup
                have hnd0 := w.hashesNodup
                rw [hsplit, List.map_append, List.map_cons] at hnd0
                rw [List.map_append, List.map_cons]
                have hrh : runHash ((⟨g.id, s'.key, s'.val, s'.hash⟩ : Node K V), u2') =
                    runHash r := by
                  show s'.hash = r.1.hash
                  rw [hs'h]
                  exact hh.symm
                rw [hrh]
                exact hnd0
              · -- heads
                intro h2
                have hcongr : headOf
                    (rs1 ++ ((⟨g.id, s'.key, s'.val, s'.hash⟩ : Node K V), u2') :: rs2) h2 =
                    headOf runs h2 := by
                  rw [hsplit]
                  refine headOf_congr_mid rs1 rs2 r _ ?_ ?_ h2
                  · show s'.hash = r.1.hash
                    rw [hs'h]
                    exact hh.symm
                  · show g.id = r.1.id
                    rw [hr1g]
                show getSlot (setSlot (setSlot a (__constrain_hash (hash k) sz) (some s'.id))
                    (__constrain_hash (hash k) sz) (some g.id)) h2 = _
                rw [hcongr, ← w.heads h2, slot_eq_getSlot _ a rfl h2]
                by_cases hx : __constrain_hash (hash k) sz = h2
                · rw [← hx]
                  rw [getSlot_setSlot_self _ _ _ (by rw [setSlot_length]; exact hlenh), hslot,
                    hgid]
                · rw [getSlot_setSlot_ne _ _ _ _ hx, getSlot_setSlot_ne _ _ _ _ hx]
              · -- hashCorrect
                intro nd hnd
                rcases List.mem_append.mp hnd with h1 | h2
                · exact w.hashCorrect nd (hAsub nd h1)
                · rcases List.mem_cons.mp h2 with rfl | h3
                  · exact w.hashCorrect s' hs'mem
                  · exact w.hashCorrect nd (hBsub nd (List.mem_cons_of_mem _ h3))
              · -- idsNodup
                rw [List.map_append, List.map_cons]
                exact hidsnew
              · -- endNotIn
                intro hcon
                rw [List.map_append, List.map_cons] at hcon
                exact w.endNotIn (hidsnew_sub e hcon)
              · -- idsFresh
                intro nd hnd
                rcases List.mem_append.mp hnd with h1 | h2
                · exact w.idsFresh nd (hAsub nd h1)
                · rcases List.mem_cons.mp h2 with rfl | h3
                  · exact w.idsFresh g hgmem
                  · exact w.idsFresh nd (hBsub nd (List.mem_cons_of_mem _ h3))
              · -- keysNodup
                rw [List.map_append, List.map_cons]
                exact hkeysnew
              · -- arrLen
                intro arr harr
                injection harr with harr2
                rw [← harr2, setSlot_length, setSlot_length]
                exact w.arrLen a rfl
              · -- arrNone
                intro hcon
                exact Option.noConfusion hcon
            · -- count accounting
              show c - 1 = ((nodesOf rs1 ++ []) ++
                (⟨g.id, s'.key, s'.val, s'.hash⟩ : Node K V) :: (u2' ++ nodesOf rs2)).length
              rw [hA] at hlens
              simp only [List.length_append, List.length_cons, List.length_nil] at hlens ⊢
              omega
            · -- no key k remains
              intro nd hnd hndk
              rcases List.mem_append.mp hnd with h1 | h2
              · exact hkeysA.1 (hndk ▸ List.mem_map_of_mem Node.key h1)
              · rcases List.mem_cons.mp h2 with rfl | h3
                · have hsk : s'.key = k := hndk
                  exact hkeysA.2 (hsk ▸ List.mem_map_of_mem Node.key
                    (List.mem_cons_self s' (u2' ++ nodesOf rs2)))
                · exact hkeysA.2 (hndk ▸ List.mem_map_of_mem Node.key
                    (List.mem_cons_of_mem s' h3))
            · -- the permutation
              refine ⟨g.val, ?_⟩
              show (ns.map (fun n => (n.key, n.val))).Perm _
              rw [hA]
              simp only [items, List.map_append, List.map_cons, List.map_nil, List.append_nil,
                List.nil_append, hgkey]
              exact List.perm_middle
          | cons x u1t =>
            have hru2 : r.1 :: r.2 = x :: (u1t ++ g :: s' :: u2') := hru
            have hr1x : r.1 = x := by injection hru2
            have hdx : hd = x.id := by rw [← hid, hr1x]
            have hxmem : x.id ∈ (nodesOf rs1 ++ x :: u1t).map Node.id :=
              List.mem_map_of_mem Node.id
                (List.mem_append_right _ (List.mem_cons_self _ _))
            have hgne : hd ≠ g.id := by
              rw [hdx]
              intro hcon
              exact hidsA.1 (hcon ▸ hxmem)
            rw [if_neg hgne, hslot]
            have hnd2 := hidnodup
            rw [hmapA2] at hnd2
            obtain ⟨-, -, hdisj⟩ := List.nodup_append.mp hnd2
            have hds' : hd ≠ s'.id := by
              rw [hdx]
              intro hcon
              exact hdisj hxmem
                (by rw [hcon]; exact List.mem_cons_of_mem _ (List.mem_cons_self _ _))
            rw [if_neg (fun hcon => hds' (Option.some.inj hcon))]
            have hstep : eraseStep g.id ns =
                (nodesOf rs1 ++ x :: u1t) ++
                  (⟨g.id, s'.key, s'.val, s'.hash⟩ : Node K V) :: (u2' ++ nodesOf rs2) := by
              rw [hA]
              exact eraseStep_append_cons _ _ g s' hidsA.1
            rw [hstep]
            have hlens : c = ns.length := hcount
            have hxrun : x ∈ runList r := by
              rw [hru]
              exact List.mem_append_left _ (List.mem_cons_self _ _)
            have hxh : x.hash = __constrain_hash (hash k) sz := hrun x hxrun
            refine ⟨⟨⟨rs1 ++
                (x, u1t ++ (⟨g.id, s'.key, s'.val, s'.hash⟩ : Node K V) :: u2') :: rs2, ?_⟩, ?_⟩,
              fun _ => ⟨hcount1, trivial, ?_, ?_⟩, (fun hcon => by cases hcon)⟩
            · refine ⟨?_, ?_, ?_, ?_, ?_, ?_, ?_, ?_, w.endFresh, ?_, ?_, ?_, w.mlfNonneg⟩
              · -- flat
                show (nodesOf rs1 ++ x :: u1t) ++
                    (⟨g.id, s'.key, s'.val, s'.hash⟩ : Node K V) :: (u2' ++ nodesOf rs2) =
                  nodesOf (rs1 ++
                    (x, u1t ++ (⟨g.id, s'.key, s'.val, s'.hash⟩ : Node K V) :: u2') :: rs2)
                rw [nodesOf_append]
                simp [nodesOf, runList, List.append_assoc]
              · -- hashEq
                intro r' hr' nd hnd
                rcases List.mem_append.mp hr' with h1 | h2
                · exact w.hashEq r' (by rw [hsplit]; exact List.mem_append_left _ h1) nd hnd
                · rcases List.mem_cons.mp h2 with rfl | h3
                  · show nd.hash = x.hash
                    rw [hxh]
                    rcases List.mem_cons.mp hnd with rfl | h4
                    · exact hxh
                    · rcases List.mem_append.mp h4 with h5 | h6
                      · exact hrun nd (by
                          rw [hru]
                          exact List.mem_append_left _ (List.mem_cons_of_mem _ h5))
                      · rcases List.mem_cons.mp h6 with rfl | h7
                        · exact hs'h
                        · exact hrun nd (by
                            rw [hru]
                            exact List.mem_append_right _ (List.mem_cons_of_mem _
                              (List.mem_cons_of_mem _ h7)))
                  · exact w.hashEq r'
                      (by rw [hsplit]; exact List.mem_append_right _ (List.mem_cons_of_mem _ h3))
                      nd hnd
              · -- hashesNodup
                have hnd0 := w.hashesNodup
                rw [hsplit, List.map_append, List.map_cons] at hnd0
                rw [List.map_append, List.map_cons]
                have hrh : runHash
                    (x, u1t ++ (⟨g.id, s'.key, s'.val, s'.hash⟩ : Node K V) :: u2') =
                    runHash r := by
                  show x.hash = r.1.hash
                  rw [hr1x]
                rw [hrh]
                exact hnd0
              · -- heads
                intro h2
                have hcongr : headOf (rs1 ++
                    (x, u1t ++ (⟨g.id, s'.key, s'.val, s'.hash⟩ : Node K V) :: u2') :: rs2) h2 =
                    headOf runs h2 := by
                  rw [hsplit]
                  refine headOf_congr_mid rs1 rs2 r _ ?_ ?_ h2
                  · show x.hash = r.1.hash
                    rw [hr1x]
                  · show x.id = r.1.id
                    rw [hr1x]
                show getSlot a h2 = _
                rw [hcongr, ← w.heads h2, slot_eq_getSlot _ a rfl h2]
              · -- hashCorrect
                intro nd hnd
                rcases List.mem_append.mp hnd with h1 | h2
                · exact w.hashCorrect nd (hAsub nd h1)
                · rcases List.mem_cons.mp h2 with rfl | h3
                  · exact w.hashCorrect s' hs'mem
                  · exact w.hashCorrect nd (hBsub nd (List.mem_cons_of_mem _ h3))
              · -- idsNodup
                rw [List.map_append, List.map_cons]
                exact hidsnew
              · -- endNotIn
                intro hcon
                rw [List.map_append, List.map_cons] at hcon
                exact w.endNotIn (hidsnew_sub e hcon)
              · -- idsFresh
                intro nd hnd
                rcases List.mem_append.mp hnd with h1 | h2
                · exact w.idsFresh nd (hAsub nd h1)
                · rcases List.mem_cons.mp h2 with rfl | h3
                  · exact w.idsFresh g hgmem
                  · exact w.idsFresh nd (hBsub nd (List.mem_cons_of_mem _ h3))
              · -- keysNodup
                rw [List.map_append, List.map_cons]
                exact hkeysnew
              · -- arrLen
                intro arr harr
                injection harr with harr2
                rw [← harr2]
                exact w.arrLen a rfl
              · -- arrNone
                intro hcon
                exact Option.noConfusion hcon
            · -- count accounting
              show c - 1 = ((nodesOf rs1 ++ x :: u1t) ++
                (⟨g.id, s'.key, s'.val, s'.hash⟩ : Node K V) :: (u2' ++ nodesOf rs2)).length
              rw [hA] at hlens
              simp only [List.length_append, List.length_cons, List.length_nil] at hlens ⊢
              omega
            · -- no key k remains
              intro nd hnd hndk
              rcases List.mem_append.mp hnd with h1 | h2
              · exact hkeysA.1 (hndk ▸ List.mem_map_of_mem Node.key h1)
              · rcases List.mem_cons.mp h2 with rfl | h3
                · have hsk : s'.key = k := hndk
                  exact hkeysA.2 (hsk ▸ List.mem_map_of_mem Node.key
                    (List.mem_cons_self s' (u2' ++ nodesOf rs2)))
                · exact hkeysA.2 (hndk ▸ List.mem_map_of_mem Node.key
                    (List.mem_cons_of_mem s' h3))
            · -- the permutation
              refine ⟨g.val, ?_⟩
              show (ns.map (fun n => (n.key, n.val))).Perm _
              rw [hA]
              simp only [items, List.map_append, List.map_cons, List.map_nil, List.append_nil,
                List.nil_append, hgkey]
              exact List.perm_middle
        | nil =>
          cases rs2 with
          | cons r2 rs2' =>
            have hsucc2 : succOf g.id ns = some r2.1 := by rw [hsucc]; rfl
            rw [hsucc2]
            simp only
            have hsnmem : r2.1 ∈ nodesOf (r2 :: rs2') :=
              List.mem_append_left _ (List.mem_cons_self _ _)
            have hsnmem' : r2.1 ∈ ns := by
              rw [hA]
              exact List.mem_append_right _ (List.mem_cons_of_mem _
                (List.mem_append_right [] hsnmem))
            have hsnh : r2.1.hash ≠ __constrain_hash (hash k) sz := hrs2 r2.1 hsnmem
            rw [if_neg hsnh]
            have hnd' : (((rs1 ++ [r]) ++ r2 :: rs2').map runHash).Nodup := by
              have h0 := w.hashesNodup
              rw [hsplit] at h0
              rw [List.append_assoc]
              exact h0
            have hq1' : ∀ q ∈ rs1 ++ [r], runHash q ≠ runHash r2 := hashes_disjoint_left hnd'
            have hhead2 : headOf runs (runHash r2) = some r2.1.id := by
              rw [hsplit]
              have h1 : headOf rs1 (runHash r2) = none :=
                (headOf_eq_none_iff _ _).mpr (fun q hq => hq1' q (List.mem_append_left _ hq))
              rw [headOf_append_none _ _ _ h1,
                headOf_cons_ne r _ _
                  (hq1' r (List.mem_append_right _ (List.mem_cons_self _ _)))]
              show (if runHash r2 = runHash r2 then some r2.1.id else headOf rs2' (runHash r2)) = _
              rw [if_pos rfl]
            have hheadr2 : getSlot a r2.1.hash = some r2.1.id := by
              have h2 := w.heads (runHash r2)
              rw [slot_eq_getSlot _ a rfl] at h2
              exact h2.trans hhead2
            have hlenr2 : r2.1.hash < a.length := lt_length_of_getSlot_eq_some a _ _ hheadr2
            have hrs2'h : ∀ nd ∈ nodesOf rs2', nd.hash ≠ __constrain_hash (hash k) sz := by
              intro nd hnd
              exact hrs2 nd (List.mem_append_right _ hnd)
            have hmapA2 : ns.map Node.id = (nodesOf rs1 ++ u1).map Node.id ++
                g.id :: r2.1.id :: (r2.2 ++ nodesOf rs2').map Node.id := by
              have h0 : ns.map Node.id = (nodesOf rs1 ++ u1).map Node.id ++
                  g.id :: (r2.1 :: (r2.2 ++ nodesOf rs2')).map Node.id := hmapA
              rw [h0, List.map_cons]
            have hmapK2 : ns.map Node.key = (nodesOf rs1 ++ u1).map Node.key ++
                k :: r2.1.key :: (r2.2 ++ nodesOf rs2').map Node.key := by
              have h0 : ns.map Node.key = (nodesOf rs1 ++ u1).map Node.key ++
                  k :: (r2.1 :: (r2.2 ++ nodesOf rs2')).map Node.key := hmapK
              rw [h0, List.map_cons]
            have hidsnew : ((nodesOf rs1 ++ u1).map Node.id ++
                g.id :: (r2.2 ++ nodesOf rs2').map Node.id).Nodup := by
              have hnd2 := hidnodup
              rw [hmapA2] at hnd2
              refine hnd2.sublist ?_
              exact ((List.sublist_cons_self r2.1.id _).cons₂ g.id).append_left _
            have hkeysnew : ((nodesOf rs1 ++ u1).map Node.key ++
                r2.1.key :: (r2.2 ++ nodesOf rs2').map Node.key).Nodup := by
              have hnd2 := hkeysnd
              rw [hmapK2] at hnd2
              refine hnd2.sublist ?_
              exact (List.sublist_cons_self k _).append_left _
            have hidsnew_sub : ∀ i, i ∈ (nodesOf rs1 ++ u1).map Node.id ++
                g.id :: (r2.2 ++ nodesOf rs2').map Node.id → i ∈ ns.map Node.id := by
              intro i hi
              rw [hmapA2]
              exact (((List.sublist_cons_self r2.1.id _).cons₂ g.id).append_left _).subset hi
            have hA2 : ns = (nodesOf rs1 ++ u1) ++ g :: (r2.1 :: (r2.2 ++ nodesOf rs2')) := hA
            have hBsub : ∀ nd ∈ r2.1 :: (r2.2 ++ nodesOf rs2'), nd ∈ ns := by
              intro nd hnd
              rw [hA2]
              exact List.mem_append_right _ (List.mem_cons_of_mem _ hnd)
            have hstep : eraseStep g.id ns =
                (nodesOf rs1 ++ u1) ++
                  (⟨g.id, r2.1.key, r2.1.val, r2.1.hash⟩ : Node K V) ::
                    (r2.2 ++ nodesOf rs2') := by
              rw [hA2]
              exact eraseStep_append_cons _ _ g r2.1 hidsA.1
            rw [hstep]
            have hlens : c = ns.length := hcount
            have hr2mem : r2 ∈ runs := by
              rw [hsplit]
              exact List.mem_append_right _ (List.mem_cons_of_mem _ (List.mem_cons_self _ _))
            cases u1 with
            | nil =>
              have hru2 : r.1 :: r.2 = g :: [] := hru
              have hr1g : r.1 = g := by injection hru2
              have hgid : hd = g.id := by rw [← hid, hr1g]
              rw [if_pos hgid, getSlot_setSlot_ne _ _ _ _ (Ne.symm hsnh), hheadr2]
              simp only [eq_self_iff_true, if_true]
              refine ⟨⟨⟨rs1 ++
                  ((⟨g.id, r2.1.key, r2.1.val, r2.1.hash⟩ : Node K V), r2.2) :: rs2', ?_⟩, ?_⟩,
                fun _ => ⟨hcount1, trivial, ?_, ?_⟩, (fun hcon => by cases hcon)⟩
              · refine ⟨?_, ?_, ?_, ?_, ?_, ?_, ?_, ?_, w.endFresh, ?_, ?_, ?_, w.mlfNonneg⟩
                · -- flat
                  show (nodesOf rs1 ++ []) ++
                      (⟨g.id, r2.1.key, r2.1.val, r2.1.hash⟩ : Node K V) ::
                        (r2.2 ++ nodesOf rs2') =
                    nodesOf (rs1 ++
                      ((⟨g.id, r2.1.key, r2.1.val, r2.1.hash⟩ : Node K V), r2.2) :: rs2')
                  rw [nodesOf_append]
                  simp [nodesOf, runList, List.append_assoc]
                · -- hashEq
                  intro r' hr' nd hnd
                  rcases List.mem_append.mp hr' with h1 | h2
                  · exact w.hashEq r' (by rw [hsplit]; exact List.mem_append_left _ h1) nd hnd
                  · rcases List.mem_cons.mp h2 with rfl | h3
                    · rcases List.mem_cons.mp hnd with rfl | h4
                      · rfl
                      · show nd.hash = r2.1.hash
                        exact w.hashEq r2 hr2mem nd (List.mem_cons_of_mem _ h4)
                    · exact w.hashEq r'
                        (by
                          rw [hsplit]
                          exact List.mem_append_right _ (List.mem_cons_of_mem _
                            (List.mem_cons_of_mem _ h3)))
                        nd hnd
                · -- hashesNodup
                  have hnd0 := w.hashesNodup
                  rw [hsplit, List.map_append, List.map_cons, List.map_cons] at hnd0
                  rw [List.map_append, List.map_cons]
                  refine hnd0.sublist ?_
                  exact (List.sublist_cons_self (runHash r) _).append_left _
                · -- heads
                  intro h2
                  show getSlot (setSlot (setSlot a (__constrain_hash (hash k) sz) none)
                      r2.1.hash (some g.id)) h2 = _
                  by_cases hx2 : r2.1.hash = h2
                  · rw [← hx2,
                      getSlot_setSlot_self _ _ _ (by rw [setSlot_length]; exact hlenr2)]
                    have h1 : headOf rs1 r2.1.hash = none :=
                      (headOf_eq_none_iff _ _).mpr
                        (fun q hq => hq1' q (List.mem_append_left _ hq))
                    rw [headOf_append_none _ _ _ h1]
                    show some g.id = (if runHash
                        ((⟨g.id, r2.1.key, r2.1.val, r2.1.hash⟩ : Node K V), r2.2) = r2.1.hash
                      then some (⟨g.id, r2.1.key, r2.1.val, r2.1.hash⟩ : Node K V).id
                      else headOf rs2' r2.1.hash)
                    rw [if_pos (show runHash ((⟨g.id, r2.1.key, r2.1.val, r2.1.hash⟩ :
                      Node K V), r2.2) = r2.1.hash from rfl)]
                  · by_cases hx1 : __constrain_hash (hash k) sz = h2
                    · rw [getSlot_setSlot_ne _ _ _ _ hx2, ← hx1,
                        getSlot_setSlot_self _ _ _ hlenh]
                      rw [headOf_append_none _ _ _ (headOf_none_of_nodes rs1 _ hrs1),
                        headOf_cons_ne ((⟨g.id, r2.1.key, r2.1.val, r2.1.hash⟩ : Node K V), r2.2) rs2' _ (fun hcon => hsnh hcon)]
                      exact (headOf_none_of_nodes rs2' _ hrs2'h).symm
                    · rw [getSlot_setSlot_ne _ _ _ _ hx2, getSlot_setSlot_ne _ _ _ _ hx1]
                      have hL : getSlot a h2 = headOf (rs1 ++ r :: r2 :: rs2') h2 := by
                        rw [← slot_eq_getSlot (⟨sz, c, m, some a, ns, e, f⟩ : Mumap K V)
                          a rfl h2, w.heads h2, hsplit]
                      rw [hL]
                      refine headOf_append_congr rs1 _ _ h2 ?_
                      rw [headOf_cons_ne r _ _ (fun hcon => hx1 (hh.symm.trans hcon)),
                        headOf_cons_ne r2 _ _ (fun hcon => hx2 hcon),
                        headOf_cons_ne ((⟨g.id, r2.1.key, r2.1.val, r2.1.hash⟩ : Node K V), r2.2) rs2' _ (fun hcon => hx2 hcon)]
                · -- hashCorrect
                  intro nd hnd
                  rcases List.mem_append.mp hnd with h1 | h2
                  · exact w.hashCorrect nd (hAsub nd h1)
                  · rcases List.mem_cons.mp h2 with rfl | h3
                    · exact w.hashCorrect r2.1 hsnmem'
                    · exact w.hashCorrect nd (hBsub nd (List.mem_cons_of_mem _ h3))
                · -- idsNodup
                  rw [List.map_append, List.map_cons]
                  exact hidsnew
                · -- endNotIn
                  intro hcon
                  rw [List.map_append, List.map_cons] at hcon
                  exact w.endNotIn (hidsnew_sub e hcon)
                · -- idsFresh
                  intro nd hnd
                  rcases List.mem_append.mp hnd with h1 | h2
                  · exact w.idsFresh nd (hAsub nd h1)
                  · rcases List.mem_cons.mp h2 with rfl | h3
                    · exact w.idsFresh g hgmem
                    · exact w.idsFresh nd (hBsub nd (List.mem_cons_of_mem _ h3))
                · -- keysNodup
                  rw [List.map_append, List.map_cons]
                  exact hkeysnew
                · -- arrLen
                  intro arr harr
                  injection harr with harr2
                  rw [← harr2, setSlot_length, setSlot_length]
                  exact w.arrLen a rfl
                · -- arrNone
                  intro hcon
                  exact Option.noConfusion hcon
              · -- count accounting
                show c - 1 = ((nodesOf rs1 ++ []) ++
                  (⟨g.id, r2.1.key, r2.1.val, r2.1.hash⟩ : Node K V) ::
                    (r2.2 ++ nodesOf rs2')).length
                rw [hA2] at hlens
                simp only [List.length_append, List.length_cons, List.length_nil] at hlens ⊢
                omega
              · -- no key k remains
                intro nd hnd hndk
                rcases List.mem_append.mp hnd with h1 | h2
                · exact hkeysA.1 (hndk ▸ List.mem_map_of_mem Node.key h1)
                · rcases List.mem_cons.mp h2 with rfl | h3
                  · have hsk : r2.1.key = k := hndk
                    exact hkeysA.2 (hsk ▸ List.mem_map_of_mem Node.key
                      (List.mem_cons_self r2.1 (r2.2 ++ nodesOf rs2')))
                  · exact hkeysA.2 (hndk ▸ List.mem_map_of_mem Node.key
                      (List.mem_cons_of_mem r2.1 h3))
              · -- the permutation
                refine ⟨g.val, ?_⟩
                show (ns.map (fun n => (n.key, n.val))).Perm _
                rw [hA2]
                simp only [items, List.map_append, List.map_cons, List.map_nil,
                  List.append_nil, List.nil_append, hgkey]
                exact List.perm_middle
            | cons x u1t =>
              have hru2 : r.1 :: r.2 = x :: (u1t ++ [g]) := hru
              have hr1x : r.1 = x := by injection hru2
              have hdx : hd = x.id := by rw [← hid, hr1x]
              have hxmem : x.id ∈ (nodesOf rs1 ++ x :: u1t).map Node.id :=
                List.mem_map_of_mem Node.id
                  (List.mem_append_right _ (List.mem_cons_self _ _))
              have hgne : hd ≠ g.id := by
                rw [hdx]
                intro hcon
                exact hidsA.1 (hcon ▸ hxmem)
              have hxrun : x ∈ runList r := by
                rw [hru]
                exact List.mem_append_left _ (List.mem_cons_self _ _)
              have hxh : x.hash = __constrain_hash (hash k) sz := hrun x hxrun
              rw [if_neg hgne, hheadr2]
              simp only [eq_self_iff_true, if_true]
              refine ⟨⟨⟨rs1 ++ (x, u1t) ::
                  ((⟨g.id, r2.1.key, r2.1.val, r2.1.hash⟩ : Node K V), r2.2) :: rs2', ?_⟩, ?_⟩,
                fun _ => ⟨hcount1, trivial, ?_, ?_⟩, (fun hcon => by cases hcon)⟩
              · refine ⟨?_, ?_, ?_, ?_, ?_, ?_, ?_, ?_, w.endFresh, ?_, ?_, ?_, w.mlfNonneg⟩
                · -- flat
                  show (nodesOf rs1 ++ x :: u1t) ++
                      (⟨g.id, r2.1.key, r2.1.val, r2.1.hash⟩ : Node K V) ::
                        (r2.2 ++ nodesOf rs2') =
                    nodesOf (rs1 ++ (x, u1t) ::
                      ((⟨g.id, r2.1.key, r2.1.val, r2.1.hash⟩ : Node K V), r2.2) :: rs2')
                  rw [nodesOf_append]
                  simp [nodesOf, runList, List.append_assoc]
                · -- hashEq
                  intro r' hr' nd hnd
                  rcases List.mem_append.mp hr' with h1 | h2
                  · exact w.hashEq r' (by rw [hsplit]; exact List.mem_append_left _ h1) nd hnd
                  · rcases List.mem_cons.mp h2 with rfl | h3
                    · show nd.hash = x.hash
                      rcases List.mem_cons.mp hnd with rfl | h4
                      · rfl
                      · rw [hxh]
                        exact hrun nd (by
                          rw [hru]
                          exact List.mem_append_left _ (List.mem_cons_of_mem _ h4))
                    · rcases List.mem_cons.mp h3 with rfl | h5
                      · rcases List.mem_cons.mp hnd with rfl | h4
                        · rfl
                        · show nd.hash = r2.1.hash
                          exact w.hashEq r2 hr2mem nd (List.mem_cons_of_mem _ h4)
                      · exact w.hashEq r'
                          (by
                            rw [hsplit]
                            exact List.mem_append_right _ (List.mem_cons_of_mem _
                              (List.mem_cons_of_mem _ h5)))
                          nd hnd
                · -- hashesNodup
                  have hnd0 := w.hashesNodup
                  rw [hsplit, List.map_append, List.map_cons, List.map_cons] at hnd0
                  rw [List.map_append, List.map_cons, List.map_cons]
                  have hxr : runHash (x, u1t) = runHash r := by
                    show x.hash = r.1.hash
                    rw [hr1x]
                  rw [hxr]
                  exact hnd0
                · -- heads
                  intro h2
                  show getSlot (setSlot a r2.1.hash (some g.id)) h2 = _
                  by_cases hx2 : r2.1.hash = h2
                  · rw [← hx2, getSlot_setSlot_self _ _ _ hlenr2]
                    have h1 : headOf rs1 r2.1.hash = none :=
                      (headOf_eq_none_iff _ _).mpr
                        (fun q hq => hq1' q (List.mem_append_left _ hq))
                    rw [headOf_append_none _ _ _ h1,
                      headOf_cons_ne (x, u1t) _ _ (fun hcon => hsnh (hcon.symm.trans hxh))]
                    show some g.id = (if runHash
                        ((⟨g.id, r2.1.key, r2.1.val, r2.1.hash⟩ : Node K V), r2.2) = r2.1.hash
                      then some (⟨g.id, r2.1.key, r2.1.val, r2.1.hash⟩ : Node K V).id
                      else headOf rs2' r2.1.hash)
                    rw [if_pos (show runHash ((⟨g.id, r2.1.key, r2.1.val, r2.1.hash⟩ :
                      Node K V), r2.2) = r2.1.hash from rfl)]
                  · by_cases hx1 : __constrain_hash (hash k) sz = h2
                    · rw [getSlot_setSlot_ne _ _ _ _ hx2, ← hx1, hslot]
                      rw [headOf_append_none _ _ _ (headOf_none_of_nodes rs1 _ hrs1)]
                      show some hd = (if runHash (x, u1t) = __constrain_hash (hash k) sz
                        then some x.id
                        else headOf (((⟨g.id, r2.1.key, r2.1.val, r2.1.hash⟩ : Node K V),
                          r2.2) :: rs2') (__constrain_hash (hash k) sz))
                      rw [if_pos (show runHash (x, u1t) = __constrain_hash (hash k) sz
                        from hxh), hdx]
                    · rw [getSlot_setSlot_ne _ _ _ _ hx2]
                      have hL : getSlot a h2 = headOf (rs1 ++ r :: r2 :: rs2') h2 := by
                        rw [← slot_eq_getSlot (⟨sz, c, m, some a, ns, e, f⟩ : Mumap K V)
                          a rfl h2, w.heads h2, hsplit]
                      rw [hL]
                      refine headOf_append_congr rs1 _ _ h2 ?_
                      rw [headOf_cons_ne r _ _ (fun hcon => hx1 (hh.symm.trans hcon)),
                        headOf_cons_ne r2 _ _ (fun hcon => hx2 hcon),
                        headOf_cons_ne (x, u1t) _ _ (fun hcon => hx1 (hxh.symm.trans hcon)),
                        headOf_cons_ne ((⟨g.id, r2.1.key, r2.1.val, r2.1.hash⟩ : Node K V), r2.2) rs2' _ (fun hcon => hx2 hcon)]
                · -- hashCorrect
                  intro nd hnd
                  rcases List.mem_append.mp hnd with h1 | h2
                  · exact w.hashCorrect nd (hAsub nd h1)
                  · rcases List.mem_cons.mp h2 with rfl | h3
                    · exact w.hashCorrect r2.1 hsnmem'
                    · exact w.hashCorrect nd (hBsub nd (List.mem_cons_of_mem _ h3))
                · -- idsNodup
                  rw [List.map_append, List.map_cons]
                  exact hidsnew
                · -- endNotIn
                  intro hcon
                  rw [List.map_append, List.map_cons] at hcon
                  exact w.endNotIn (hidsnew_sub e hcon)
                · -- idsFresh
                  intro nd hnd
                  rcases List.mem_append.mp hnd with h1 | h2
                  · exact w.idsFresh nd (hAsub nd h1)
                  · rcases List.mem_cons.mp h2 with rfl | h3
                    · exact w.idsFresh g hgmem
                    · exact w.idsFresh nd (hBsub nd (List.mem_cons_of_mem _ h3))
                · -- keysNodup
                  rw [List.map_append, List.map_cons]
                  exact hkeysnew
                · -- arrLen
                  intro arr harr
                  injection harr with harr2
                  rw [← harr2, setSlot_length]
                  exact w.arrLen a rfl
                · -- arrNone
                  intro hcon
                  exact Option.noConfusion hcon
              · -- count accounting
                show c - 1 = ((nodesOf rs1 ++ x :: u1t) ++
                  (⟨g.id, r2.1.key, r2.1.val, r2.1.hash⟩ : Node K V) ::
                    (r2.2 ++ nodesOf rs2')).length
                rw [hA2] at hlens
                simp only [List.length_append, List.length_cons, List.length_nil] at hlens ⊢
                omega
              · -- no key k remains
                intro nd hnd hndk
                rcases List.mem_append.mp hnd with h1 | h2
                · exact hkeysA.1 (hndk ▸ List.mem_map_of_mem Node.key h1)
                · rcases List.mem_cons.mp h2 with rfl | h3
                  · have hsk : r2.1.key = k := hndk
                    exact hkeysA.2 (hsk ▸ List.mem_map_of_mem Node.key
                      (List.mem_cons_self r2.1 (r2.2 ++ nodesOf rs2')))
                  · exact hkeysA.2 (hndk ▸ List.mem_map_of_mem Node.key
                      (List.mem_cons_of_mem r2.1 h3))
              · -- the permutation
                refine ⟨g.val, ?_⟩
                show (ns.map (fun n => (n.key, n.val))).Perm _
                rw [hA2]
                simp only [items, List.map_append, List.map_cons, List.map_nil,
                  List.append_nil, List.nil_append, hgkey]
                exact List.perm_middle
          | nil =>
            have hsucc2 : succOf g.id ns = none := by rw [hsucc]; rfl
            rw [hsucc2]
            simp only
            have hA2 : ns = (nodesOf rs1 ++ u1) ++ [g] := hA
            have hstep : eraseStep g.id ns = nodesOf rs1 ++ u1 := by
              rw [hA2]
              exact eraseStep_append_last _ g hidsA.1
            rw [hstep]
            have hlens : c = ns.length := hcount
            have hgidf : g.id < f := w.idsFresh g hgmem
            have hidleft : ((nodesOf rs1 ++ u1).map Node.id).Nodup := by
              have hnd2 := hidnodup
              rw [hmapA] at hnd2
              exact (List.nodup_append.mp hnd2).1
            have hkeyleft : ((nodesOf rs1 ++ u1).map Node.key).Nodup := by
              have hnd2 := hkeysnd
              rw [hmapK] at hnd2
              exact (List.nodup_append.mp hnd2).1
            have hendleft : e ∉ (nodesOf rs1 ++ u1).map Node.id := by
              intro hcon
              refine w.endNotIn ?_
              rw [hmapA]
              exact List.mem_append_left _ hcon
            cases u1 with
            | nil =>
              have hru2 : r.1 :: r.2 = g :: [] := hru
              have hr1g : r.1 = g := by injection hru2
              have hgid : hd = g.id := by rw [← hid, hr1g]
              rw [if_pos hgid]
              refine ⟨⟨⟨rs1, ?_⟩, ?_⟩,
                fun _ => ⟨hcount1, trivial, ?_, ?_⟩, (fun hcon => by cases hcon)⟩
              · refine ⟨?_, ?_, ?_, ?_, ?_, ?_, ?_, ?_, ?_, ?_, ?_, ?_, w.mlfNonneg⟩
                · -- flat
                  exact List.append_nil (nodesOf rs1)
                · -- hashEq
                  intro r' hr' nd hnd
                  exact w.hashEq r' (by rw [hsplit]; exact List.mem_append_left _ hr') nd hnd
                · -- hashesNodup
                  have hnd0 := w.hashesNodup
                  rw [hsplit, List.map_append] at hnd0
                  exact (List.nodup_append.mp hnd0).1
                · -- heads
                  intro h2
                  show getSlot (setSlot a (__constrain_hash (hash k) sz) none) h2 = _
                  by_cases hx1 : __constrain_hash (hash k) sz = h2
                  · rw [← hx1, getSlot_setSlot_self _ _ _ hlenh]
                    exact (headOf_none_of_nodes rs1 _ hrs1).symm
                  · rw [getSlot_setSlot_ne _ _ _ _ hx1]
                    have hL : getSlot a h2 = headOf (rs1 ++ [r]) h2 := by
                      rw [← slot_eq_getSlot (⟨sz, c, m, some a, ns, e, f⟩ : Mumap K V)
                        a rfl h2, w.heads h2, hsplit]
                    rw [hL]
                    have hxy : headOf [r] h2 = headOf ([] :
                        List (Node K V × List (Node K V))) h2 := by
                      rw [headOf_cons_ne r _ _ (fun hcon => hx1 (hh.symm.trans hcon))]
                    exact (headOf_append_congr rs1 [r] [] h2 hxy).trans
                      (by rw [List.append_nil])
                · -- hashCorrect
                  intro nd hnd
                  exact w.hashCorrect nd (hAsub nd hnd)
                · -- idsNodup
                  exact hidleft
                · -- endNotIn
                  exact hidsA.1
                · -- idsFresh
                  intro nd hnd
                  exact w.idsFresh nd (hAsub nd hnd)
                · -- endFresh
                  exact hgidf
                · -- keysNodup
                  exact hkeyleft
                · -- arrLen
                  intro arr harr
                  injection harr with harr2
                  rw [← harr2, setSlot_length]
                  exact w.arrLen a rfl
                · -- arrNone
                  intro hcon
                  exact Option.noConfusion hcon
              · -- count accounting
                show c - 1 = (nodesOf rs1 ++ []).length
                rw [hA2] at hlens
                simp only [List.length_append, List.length_cons, List.length_nil] at hlens ⊢
                omega
              · -- no key k remains
                intro nd hnd hndk
                exact hkeysA.1 (hndk ▸ List.mem_map_of_mem Node.key hnd)
              · -- the permutation
                refine ⟨g.val, ?_⟩
                show (ns.map (fun n => (n.key, n.val))).Perm _
                rw [hA2]
                simp only [items, List.map_append, List.map_cons, List.map_nil,
                  List.append_nil, List.nil_append, hgkey]
                exact List.perm_append_singleton _ _
            | cons x u1t =>
              have hru2 : r.1 :: r.2 = x :: (u1t ++ [g]) := hru
              have hr1x : r.1 = x := by injection hru2
              have hdx : hd = x.id := by rw [← hid, hr1x]
              have hxmem : x.id ∈ (nodesOf rs1 ++ x :: u1t).map Node.id :=
                List.mem_map_of_mem Node.id
                  (List.mem_append_right _ (List.mem_cons_self _ _))
              have hgne : hd ≠ g.id := by
                rw [hdx]
                intro hcon
                exact hidsA.1 (hcon ▸ hxmem)
              have hxrun : x ∈ runList r := by
                rw [hru]
                exact List.mem_append_left _ (List.mem_cons_self _ _)
              have hxh : x.hash = __constrain_hash (hash k) sz := hrun x hxrun
              rw [if_neg hgne]
              refine ⟨⟨⟨rs1 ++ [(x, u1t)], ?_⟩, ?_⟩,
                fun _ => ⟨hcount1, trivial, ?_, ?_⟩, (fun hcon => by cases hcon)⟩
              · refine ⟨?_, ?_, ?_, ?_, ?_, ?_, ?_, ?_, ?_, ?_, ?_, ?_, w.mlfNonneg⟩
                · -- flat
                  show nodesOf rs1 ++ x :: u1t = nodesOf (rs1 ++ [(x, u1t)])
                  rw [nodesOf_append]
                  simp [nodesOf, runList, List.append_assoc]
                · -- hashEq
                  intro r' hr' nd hnd
                  rcases List.mem_append.mp hr' with h1 | h2
                  · exact w.hashEq r' (by rw [hsplit]; exact List.mem_append_left _ h1) nd hnd
                  · rcases List.mem_cons.mp h2 with rfl | h3
                    · show nd.hash = x.hash
                      rcases List.mem_cons.mp hnd with rfl | h4
                      · rfl
                      · rw [hxh]
                        exact hrun nd (by
                          rw [hru]
                          exact List.mem_append_left _ (List.mem_cons_of_mem _ h4))
                    · cases h3
                · -- hashesNodup
                  have hnd0 := w.hashesNodup
                  rw [hsplit, List.map_append, List.map_cons] at hnd0
                  rw [List.map_append, List.map_cons]
                  have hxr : runHash (x, u1t) = runHash r := by
                    show x.hash = r.1.hash
                    rw [hr1x]
                  rw [hxr]
                  exact hnd0
                · -- heads
                  intro h2
                  have hcongr : headOf (rs1 ++ [(x, u1t)]) h2 = headOf runs h2 := by
                    rw [hsplit]
                    refine headOf_congr_mid rs1 [] r _ ?_ ?_ h2
                    · show x.hash = r.1.hash
                      rw [hr1x]
                    · show x.id = r.1.id
                      rw [hr1x]
                  show getSlot a h2 = _
                  rw [hcongr, ← w.heads h2,
                    slot_eq_getSlot (⟨sz, c, m, some a, ns, e, f⟩ : Mumap K V) a rfl h2]
                · -- hashCorrect
                  intro nd hnd
                  exact w.hashCorrect nd (hAsub nd hnd)
                · -- idsNodup
                  exact hidleft
                · -- endNotIn
                  exact hidsA.1
                · -- idsFresh
                  intro nd hnd
                  exact w.idsFresh nd (hAsub nd hnd)
                · -- endFresh
                  exact hgidf
                · -- keysNodup
                  exact hkeyleft
                · -- arrLen
                  intro arr harr
                  injection harr with harr2
                  rw [← harr2]
                  exact w.arrLen a rfl
                · -- arrNone
                  intro hcon
                  exact Option.noConfusion hcon
              · -- count accounting
                show c - 1 = (nodesOf rs1 ++ x :: u1t).length
                rw [hA2] at hlens
                simp only [List.length_append, List.length_cons, List.length_nil] at hlens ⊢
                omega
              · -- no key k remains
                intro nd hnd hndk
                exact hkeysA.1 (hndk ▸ List.mem_map_of_mem Node.key hnd)
              · -- the permutation
                refine ⟨g.val, ?_⟩
                show (ns.map (fun n => (n.key, n.val))).Perm _
                rw [hA2]
                simp only [items, List.map_append, List.map_cons, List.map_nil,
                  List.append_nil, List.nil_append, hgkey]
                exact List.perm_append_singleton _ _

/-! ### The empty container and the public rehash -/

lemma mem_items {st : Mumap K V} {k : K} {v : V} :
    (k, v) ∈ items st ↔ ∃ nd ∈ st.nodes, nd.key = k ∧ nd.val = v := by
  unfold items
  rw [List.mem_map]
  constructor
  · rintro ⟨nd, hnd, heq⟩
    obtain ⟨h1, h2⟩ := Prod.ext_iff.mp heq
    exact ⟨nd, hnd, h1, h2⟩
  · rintro ⟨nd, hnd, hk, hv⟩
    exact ⟨nd, hnd, by rw [hk, hv]⟩

/-- A default-constructed container is well formed. -/
lemma wf_new : WF hash (mumapNew : Mumap K V) := by
  refine ⟨⟨[], ?_⟩, rfl⟩
  exact
    { flat := rfl
      hashEq := by intro r hr; cases hr
      hashesNodup := List.nodup_nil
      heads := fun _ => rfl
      hashCorrect := by intro nd hnd; cases hnd
      idsNodup := List.nodup_nil
      endNotIn := List.not_mem_nil _
      idsFresh := by intro nd hnd; cases hnd
      endFresh := Nat.zero_lt_one
      keysNodup := List.nodup_nil
      arrLen := by intro a ha; cases ha
      arrNone := fun _ => rfl
      mlfNonneg := zero_le_one }

/-- The public `rehash` preserves well-formedness and the stored pairs,
whether or not the request is rejected. -/
lemma rehash_wf {st : Mumap K V} (hwf : WF hash st) (n : Nat) :
    WF hash (MUM.rehash hash st n).2 ∧
    (items (MUM.rehash hash st n).2).Perm (items st) := by
  obtain ⟨⟨runs, w⟩, hcount⟩ := hwf
  cases hg : mulMlfLt n st.mlf st.count with
  | true =>
    have hre : MUM.rehash hash st n = (false, st) := by
      unfold MUM.rehash
      rw [hg]
      rfl
    rw [hre]
    exact ⟨⟨⟨runs, w⟩, hcount⟩, List.Perm.refl _⟩
  | false =>
    have hre : MUM.rehash hash st n = (true, __rehash hash st n) := by
      unfold MUM.rehash
      rw [hg]
      rfl
    have hle : (st.count : ℚ) ≤ (n : ℚ) * st.mlf :=
      (mulMlfLt_eq_false_iff n st.count st.mlf).mp hg
    have hcase : 0 < n ∨ st.nodes = [] := by
      by_cases hn : 0 < n
      · exact Or.inl hn
      · right
        have hn0 : n = 0 := by omega
        rw [hn0] at hle
        push_cast at hle
        rw [zero_mul] at hle
        have hc0 : st.count = 0 := by
          exact_mod_cast le_antisymm hle (Nat.cast_nonneg st.count)
        have hlen : st.nodes.length = 0 := by rw [← hcount, hc0]
        exact List.eq_nil_of_length_eq_zero hlen
    obtain ⟨hwfc1, hperm1⟩ := rehash_spec hash w n hcase
    rw [hre]
    refine ⟨⟨hwfc1, ?_⟩, ?_⟩
    · show st.count = _
      rw [hperm1.length_eq, List.length_map, hcount]
    · unfold items
      refine (hperm1.map _).trans ?_
      rw [List.map_map]
      rfl

/-- C4: when the requested bucket count `n` satisfies
`n * max_load_factor ≥ count`, `rehash n` succeeds, the container afterwards
holds exactly the same (key, value) pairs, and every one of them is
reachable through `find`. -/
theorem c4_rehash_preserves {st : Mumap K V} (hwf : WF hash st) (n : Nat)
    (hle : (st.count : ℚ) ≤ (n : ℚ) * st.mlf) :
    (MUM.rehash hash st n).1 = true ∧
    (items (MUM.rehash hash st n).2).Perm (items st) ∧
    ∀ k v, (k, v) ∈ items st → lookup hash (MUM.rehash hash st n).2 k = some v := by
  have hg : mulMlfLt n st.mlf st.count = false :=
    (mulMlfLt_eq_false_iff n st.count st.mlf).mpr hle
  obtain ⟨hwf2, hperm⟩ := rehash_wf hash hwf n
  refine ⟨?_, hperm, ?_⟩
  · unfold MUM.rehash
    rw [hg]
    rfl
  · intro k v hkv
    rw [lookup_eq_some_iff hash hwf2.1 k v]
    exact mem_items.mp (hperm.mem_iff.mpr hkv)

/-- Witness for C7 on a one-element container with load factor 1. -/
theorem c7_load_factor_guard_witness :
    ((MUM.insert (fun k => k) ((MUM.insert (fun k => k) mumapNew ((3 : Nat), (7 : Nat))).2.2) (5, 11)).2.2.count : ℚ) ≤
      ((MUM.insert (fun k => k) ((MUM.insert (fun k => k) mumapNew ((3 : Nat), (7 : Nat))).2.2) (5, 11)).2.2.size : ℚ) *
        (MUM.insert (fun k => k) ((MUM.insert (fun k => k) mumapNew ((3 : Nat), (7 : Nat))).2.2) (5, 11)).2.2.mlf ∧
    (MUM.erase (fun k => k) ((MUM.insert (fun k => k) mumapNew ((3 : Nat), (7 : Nat))).2.2) 3).2.size =
      ((MUM.insert (fun k => k) mumapNew ((3 : Nat), (7 : Nat))).2.2).size :=
  c7_load_factor_guard (fun k => k) _ (5, 11) 3
    (by show (0 : ℚ) < (1 : ℚ); linarith)
    (by
      show ((1 : Nat) : ℚ) * (1 : ℚ) < ((1 : Nat) : ℚ) + 1
      push_cast
      linarith)

/-! ### The remaining public operations and reachable states -/

/-- `clear()` reaches a well-formed empty state. -/
lemma clear_wf {st : Mumap K V} (hwf : WF hash st) : WF hash (MUM.clear st) := by
  obtain ⟨⟨runs, w⟩, -⟩ := hwf
  refine ⟨⟨[], ?_⟩, rfl⟩
  exact
    { flat := rfl
      hashEq := by intro r hr; cases hr
      hashesNodup := List.nodup_nil
      heads := fun _ => rfl
      hashCorrect := by intro nd hnd; cases hnd
      idsNodup := List.nodup_nil
      endNotIn := List.not_mem_nil _
      idsFresh := by intro nd hnd; cases hnd
      endFresh := w.endFresh
      keysNodup := List.nodup_nil
      arrLen := by intro a ha; cases ha
      arrNone := fun _ => rfl
      mlfNonneg := w.mlfNonneg }

/-- `max_load_factor(f)` stores `|f|` and preserves the invariant. -/
lemma maxLoadFactorSet_wf {st : Mumap K V} (hwf : WF hash st) (q : ℚ) :
    WF hash (maxLoadFactorSet st q) := by
  obtain ⟨⟨runs, w⟩, hcount⟩ := hwf
  refine ⟨⟨runs, ?_⟩, hcount⟩
  exact
    { flat := w.flat
      hashEq := w.hashEq
      hashesNodup := w.hashesNodup
      heads := w.heads
      hashCorrect := w.hashCorrect
      idsNodup := w.idsNodup
      endNotIn := w.endNotIn
      idsFresh := w.idsFresh
      endFresh := w.endFresh
      keysNodup := w.keysNodup
      arrLen := w.arrLen
      arrNone := w.arrNone
      mlfNonneg := abs_nonneg q }

/-- The freshly allocated object the copy constructor starts from is well
formed for any size, count and nonnegative load factor. -/
lemma copy_base_wfc (sz cnt : Nat) (m : ℚ) (hm : 0 ≤ m) :
    WFc hash ({ size := sz, count := cnt, mlf := m,
                array := if 0 < sz then some (List.replicate sz none) else none,
                nodes := [], endId := 0, fresh := 1 } : Mumap K V) := by
  refine ⟨[], ?_⟩
  refine ⟨rfl, ?_, List.nodup_nil, ?_, ?_, List.nodup_nil, List.not_mem_nil _, ?_,
    Nat.zero_lt_one, List.nodup_nil, ?_, ?_, hm⟩
  · intro r hr
    cases hr
  · intro h
    show slot _ h = none
    unfold slot
    by_cases hp : 0 < sz
    · show (match (if 0 < sz then some (List.replicate sz (none : Option Nat))
          else none) with
        | none => none
        | some a => getSlot a h) = none
      rw [if_pos hp]
      exact getSlot_replicate sz h
    · show (match (if 0 < sz then some (List.replicate sz (none : Option Nat))
          else none) with
        | none => none
        | some a => getSlot a h) = none
      rw [if_neg hp]
  · intro nd hnd
    cases hnd
  · intro nd hnd
    cases hnd
  · intro a ha
    show _ = sz
    by_cases hp : 0 < sz
    · rw [if_pos hp] at ha
      injection ha with ha2
      rw [← ha2]
      exact List.length_replicate sz none
    · rw [if_neg hp] at ha
      cases ha
  · intro ha
    show sz = 0
    by_cases hp : 0 < sz
    · rw [if_pos hp] at ha
      cases ha
    · omega

/-- The re-insertion loop of the copy constructor: folding
`__bucket_insert` with the cached hashes over the source list keeps the
copy well formed and reproduces exactly the source pairs. -/
lemma copy_fold {st : Mumap K V}
    (hkeys : ((st.nodes.map Node.key)).Nodup)
    (hhash : ∀ nd ∈ st.nodes, nd.hash = __constrain_hash (hash nd.key) st.size) :
    ∀ (rest pref : List (Node K V)) (acc : Mumap K V),
      st.nodes = pref ++ rest →
      WFc hash acc →
      acc.size = st.size →
      acc.mlf = st.mlf →
      acc.count = st.count →
      acc.nodes.length = pref.length →
      (items acc).Perm (pref.map (fun nd => (nd.key, nd.val))) →
      (∀ nd ∈ acc.nodes, ∃ nd0 ∈ pref, nd0.key = nd.key) →
      0 < acc.size →
      WFc hash (List.foldl
        (fun acc2 g => (__bucket_insert acc2 (g.key, g.val) g.hash).2) acc rest) ∧
      (List.foldl (fun acc2 g => (__bucket_insert acc2 (g.key, g.val) g.hash).2)
        acc rest).size = st.size ∧
      (List.foldl (fun acc2 g => (__bucket_insert acc2 (g.key, g.val) g.hash).2)
        acc rest).mlf = st.mlf ∧
      (List.foldl (fun acc2 g => (__bucket_insert acc2 (g.key, g.val) g.hash).2)
        acc rest).count = st.count ∧
      (List.foldl (fun acc2 g => (__bucket_insert acc2 (g.key, g.val) g.hash).2)
        acc rest).nodes.length = st.nodes.length ∧
      (items (List.foldl (fun acc2 g => (__bucket_insert acc2 (g.key, g.val) g.hash).2)
        acc rest)).Perm (items st) := by
  intro rest
  induction rest with
  | nil =>
    intro pref acc hsplit hwfc hsz hmlf hcnt hlen hitems hkeysub hpos
    simp only [List.foldl_nil]
    refine ⟨hwfc, hsz, hmlf, hcnt, ?_, ?_⟩
    · rw [hlen, hsplit, List.append_nil]
    · show (items acc).Perm (st.nodes.map (fun nd => (nd.key, nd.val)))
      rw [hsplit, List.append_nil]
      exact hitems
  | cons g rest ih =>
    intro pref acc hsplit hwfc hsz hmlf hcnt hlen hitems hkeysub hpos
    simp only [List.foldl_cons]
    obtain ⟨runsA, wA⟩ := hwfc
    have hgmem : g ∈ st.nodes := by
      rw [hsplit]
      exact List.mem_append_right _ (List.mem_cons_self _ _)
    have hgh : g.hash = __constrain_hash (hash g.key) acc.size := by
      rw [hsz]
      exact hhash g hgmem
    have hgnotpref : ∀ nd0 ∈ pref, nd0.key ≠ g.key := by
      intro nd0 hnd0 hcon
      have hnd2 := hkeys
      rw [hsplit, List.map_append, List.map_cons] at hnd2
      exact (nodup_middle_not_left hnd2).1 (hcon ▸ List.mem_map_of_mem Node.key hnd0)
    have hbspec := bucket_insert_spec hash wA (g.key, g.val) hpos
    rw [hgh]
    cases hbi : __bucket_insert acc (g.key, g.val)
        (__constrain_hash (hash g.key) acc.size) with
    | mk o st2 =>
      cases o with
      | none =>
        exfalso
        obtain ⟨-, nd, hnd, hkey⟩ := hbspec.2 st2 hbi
        obtain ⟨nd0, hnd0, hkey0⟩ := hkeysub nd hnd
        exact hgnotpref nd0 hnd0 (hkey0.trans hkey)
      | some nw =>
        obtain ⟨hwfc2, hnw, -, hperm2, hc2, hs2, hm2, -, -⟩ := hbspec.1 nw st2 hbi
        have hsplit2 : st.nodes = (pref ++ [g]) ++ rest := by
          rw [hsplit, List.append_assoc]
          rfl
        refine ih (pref ++ [g]) st2 hsplit2 hwfc2 (hs2.trans hsz) (hm2.trans hmlf)
          (hc2.trans hcnt) ?_ ?_ ?_ ?_
        · rw [hperm2.length_eq, List.length_cons, hlen, List.length_append,
            List.length_cons, List.length_nil]
        · show (st2.nodes.map (fun nd => (nd.key, nd.val))).Perm _
          refine (hperm2.map _).trans ?_
          rw [List.map_cons, List.map_append]
          have hh1 : ((nw.key, nw.val) : K × V) = (g.key, g.val) := by
            rw [hnw]
          rw [hh1]
          refine (hitems.cons ((g.key, g.val) : K × V)).trans ?_
          exact (List.perm_append_singleton _ _).symm
        · intro nd hnd
          rcases List.mem_cons.mp (hperm2.mem_iff.mp hnd) with rfl | h2
          · refine ⟨g, List.mem_append_right _ (List.mem_cons_self _ _), ?_⟩
            rw [hnw]
          · obtain ⟨nd0, hnd0, hkey0⟩ := hkeysub nd h2
            exact ⟨nd0, List.mem_append_left _ hnd0, hkey0⟩
        · rw [hs2]
          exact hpos

/-- The copy constructor produces a well-formed container holding exactly
the source's pairs, with the source's bucket count. -/
lemma copyCtor_wf {st : Mumap K V} (hwf : WF hash st) :
    WF hash (copyCtor st) ∧ (items (copyCtor st)).Perm (items st) ∧
    (copyCtor st).size = st.size := by
  obtain ⟨⟨runs0, w⟩, hcount⟩ := hwf
  have hbase : WFc hash ({ size := st.size, count := st.count, mlf := st.mlf,
                           array := if 0 < st.size then
                             some (List.replicate st.size none) else none,
                           nodes := [], endId := 0, fresh := 1 } : Mumap K V) :=
    copy_base_wfc hash st.size st.count st.mlf w.mlfNonneg
  have hcopy : copyCtor st = List.foldl
      (fun acc2 g => (__bucket_insert acc2 (g.key, g.val) g.hash).2)
      ({ size := st.size, count := st.count, mlf := st.mlf,
         array := if 0 < st.size then some (List.replicate st.size none) else none,
         nodes := [], endId := 0, fresh := 1 } : Mumap K V) st.nodes := rfl
  cases hns : st.nodes with
  | nil =>
    rw [hcopy, hns]
    simp only [List.foldl_nil]
    refine ⟨⟨hbase, ?_⟩, ?_, trivial⟩
    · show st.count = 0
      rw [hcount, hns]
      rfl
    · show (items _).Perm (items st)
      unfold items
      rw [hns]
  | cons n0 ns0 =>
    have hpos : 0 < st.size := WFr.size_pos hash w (by rw [hns]; simp)
    have hfold := copy_fold hash w.keysNodup w.hashCorrect st.nodes []
      ({ size := st.size, count := st.count, mlf := st.mlf,
         array := if 0 < st.size then some (List.replicate st.size none) else none,
         nodes := [], endId := 0, fresh := 1 } : Mumap K V)
      (List.nil_append _).symm hbase rfl rfl rfl rfl (List.Perm.refl _)
      (by intro nd hnd; cases hnd) hpos
    rw [hcopy]
    obtain ⟨hwfcF, hszF, -, hcntF, hlenF, hitemsF⟩ := hfold
    refine ⟨⟨hwfcF, ?_⟩, hitemsF, hszF⟩
    rw [hcntF, hlenF, hcount]

/-- Every state reachable through the public interface is well formed. -/
lemma reachableI_wf {st : Mumap K V} {fl : Bool} (h : ReachableI hash st fl) :
    WF hash st := by
  induction h with
  | init => exact wf_new hash
  | insert st f p hr ih => exact (insert_spec hash ih p).1
  | erase st f k hr ih => exact (erase_spec hash ih k).1
  | rehash st f n hr ih => exact (rehash_wf hash ih n).1
  | clear st f hr ih => exact clear_wf hash ih
  | mlfSet st f q hr ih => exact maxLoadFactorSet_wf hash ih q
  | copy st f hr ih => exact (copyCtor_wf hash ih).1
  | moveFrom st f hr ih => exact wf_new hash

/-- C6: key uniqueness.  In every state reachable by any sequence of public
operations, the stored keys are pairwise distinct. -/
theorem c6_key_uniqueness {st : Mumap K V} (h : Reachable hash st) :
    ((st.nodes.map Node.key)).Nodup := by
  obtain ⟨fl, hr⟩ := h
  obtain ⟨⟨runs, w⟩, -⟩ := reachableI_wf hash hr
  exact w.keysNodup

/-- C10 (amended): in every reachable state with bucket count zero the
container holds no elements at all (the original claim — that bucket count
zero implies the container never received an insertion — fails, because
`clear` resets the bucket count of a previously inserted-into container to
zero). -/
theorem c10_bucket_zero {st : Mumap K V} (h : Reachable hash st)
    (hsz : st.size = 0) : st.count = 0 ∧ st.nodes = [] := by
  obtain ⟨fl, hr⟩ := h
  obtain ⟨⟨runs, w⟩, hcount⟩ := reachableI_wf hash hr
  have hnil : st.nodes = [] := by
    by_contra hne
    have := WFr.size_pos hash w hne
    omega
  refine ⟨?_, hnil⟩
  rw [hcount, hnil]
  rfl

/-! ### Concrete containers used to witness the theorems -/

def natHash : Nat → Nat := fun k => k

/-- A one-element container: `(3, 7)` inserted into a fresh map. -/
def stA : Mumap Nat Nat := (MUM.insert natHash mumapNew ((3 : Nat), (7 : Nat))).2.2

lemma wfA : WF natHash stA :=
  (insert_spec natHash (wf_new natHash) ((3 : Nat), (7 : Nat))).1

/-- Witness for C4: growing a one-element container to two buckets keeps its
pair findable. -/
theorem c4_rehash_preserves_witness :
    ((stA.count : ℚ) ≤ ((2 : Nat) : ℚ) * stA.mlf) ∧
    (MUM.rehash natHash stA 2).1 = true ∧
    lookup natHash (MUM.rehash natHash stA 2).2 3 = some 7 := by
  have hle : (stA.count : ℚ) ≤ ((2 : Nat) : ℚ) * stA.mlf := by
    rw [show stA.count = 1 from rfl, show stA.mlf = 1 from rfl]
    push_cast
    linarith
  have h := c4_rehash_preserves natHash wfA 2 hle
  exact ⟨hle, h.1, h.2.2 3 7 (by decide)⟩

/-- Counterexample to C2 as stated: the container `stA` already holds key 3,
yet inserting `(3, 9)` changes the bucket count (the growth rehash runs
before the duplicate is detected) and returns the past-last sentinel, not a
handle to the pre-existing element. -/
theorem c2_dup_insert_counterexample :
    (∃ nd ∈ stA.nodes, nd.key = 3) ∧
    (MUM.insert natHash stA ((3 : Nat), (9 : Nat))).2.2.size ≠ stA.size ∧
    (MUM.insert natHash stA ((3 : Nat), (9 : Nat))).1 = none := by
  decide

/-- C2 (amended): inserting a pair whose key is already present reports
failure with the past-last handle and leaves the stored pairs and the
element count unchanged; the bucket count, however, may grow, and the
returned handle is the end sentinel rather than the pre-existing element. -/
theorem c2_dup_insert {st : Mumap K V} (hwf : WF hash st) (p : K × V)
    (hdup : ∃ nd ∈ st.nodes, nd.key = p.1) :
    (MUM.insert hash st p).2.1 = false ∧
    (MUM.insert hash st p).1 = none ∧
    (items (MUM.insert hash st p).2.2).Perm (items st) ∧
    (MUM.insert hash st p).2.2.count = st.count := by
  obtain ⟨hwf2, hsucc, hfail⟩ := insert_spec hash hwf p
  cases hflag : (MUM.insert hash st p).2.1 with
  | true =>
    obtain ⟨-, habsent, -⟩ := hsucc hflag
    obtain ⟨nd, hnd, hk⟩ := hdup
    exact absurd hk (habsent nd hnd)
  | false =>
    obtain ⟨hperm, hnone⟩ := hfail hflag
    exact ⟨rfl, hnone, hperm, (insert_fields hash st p).2.1 hflag⟩

/-- Emptiness is decided by comparing the list head with the sentinel; under
the invariant this coincides with the count being zero. -/
lemma empty_iff_count {st : Mumap K V} (hwf : WF hash st) :
    st.count = 0 ↔ empty st = true := by
  obtain ⟨⟨runs, w⟩, hcount⟩ := hwf
  have hend := w.endNotIn
  unfold empty startNext
  cases hns : st.nodes with
  | nil =>
    rw [beq_iff_eq]
    constructor
    · intro _
      rfl
    · intro _
      rw [hcount, hns]
      rfl
  | cons n rest =>
    rw [beq_iff_eq]
    constructor
    · intro h0
      rw [hcount, hns] at h0
      exact absurd h0 (by simp)
    · intro heq
      exfalso
      apply hend
      rw [hns, ← heq]
      exact List.mem_map_of_mem Node.id (List.mem_cons_self n rest)

/-- C1: the public round trip.  Immediately after a successful insert of
`(k, v)`, `find k` reports an element mapping to `v`; immediately after a
successful `erase k`, `find k` reports not-found. -/
theorem c1_round_trip {st : Mumap K V} (hwf : WF hash st) (p : K × V) (k2 : K) :
    ((MUM.insert hash st p).2.1 = true →
      lookup hash (MUM.insert hash st p).2.2 p.1 = some p.2) ∧
    ((MUM.erase hash st k2).1 = true →
      lookup hash (MUM.erase hash st k2).2 k2 = none) := by
  obtain ⟨hwfI, hsucc, -⟩ := insert_spec hash hwf p
  obtain ⟨hwfE, hsuccE, -⟩ := erase_spec hash hwf k2
  constructor
  · intro hflag
    obtain ⟨-, -, nd, hnd, hkey, hval⟩ := hsucc hflag
    rw [lookup_eq_some_iff hash hwfI.1]
    exact ⟨nd, hnd, hkey, hval⟩
  · intro hflag
    obtain ⟨-, -, habs, -⟩ := hsuccE hflag
    rw [lookup_eq_none_iff hash hwfE.1]
    exact habs

/-- C3: the erase frame property.  Erasing key `k` — successfully or not —
does not change the lookup result of any other key, despite the
sentinel-swap relabeling. -/
theorem c3_erase_frame {st : Mumap K V} (hwf : WF hash st) (k k2 : K)
    (hne : k2 ≠ k) :
    lookup hash (MUM.erase hash st k).2 k2 = lookup hash st k2 := by
  obtain ⟨hwfE, hsuccE, hfailE⟩ := erase_spec hash hwf k
  cases hflag : (MUM.erase hash st k).1 with
  | false =>
    obtain ⟨hst, -⟩ := hfailE hflag
    rw [hst]
  | true =>
    obtain ⟨-, -, -, v, hperm⟩ := hsuccE hflag
    cases h2 : lookup hash st k2 with
    | some v2 =>
      obtain ⟨nd, hnd, hkey, hval⟩ := (lookup_eq_some_iff hash hwf.1 k2 v2).mp h2
      rw [lookup_eq_some_iff hash hwfE.1]
      have hmem : ((k2, v2) : K × V) ∈ (k, v) :: items (MUM.erase hash st k).2 :=
        hperm.mem_iff.mp (mem_items.mpr ⟨nd, hnd, hkey, hval⟩)
      rcases List.mem_cons.mp hmem with heq | hmem2
      · exact absurd (congrArg Prod.fst heq) hne
      · exact mem_items.mp hmem2
    | none =>
      rw [lookup_eq_none_iff hash hwfE.1]
      intro nd hnd hkey
      have hmem : ((k2, nd.val) : K × V) ∈ items st :=
        hperm.mem_iff.mpr (List.mem_cons_of_mem _ (mem_items.mpr ⟨nd, hnd, hkey, rfl⟩))
      obtain ⟨nd0, hnd0, hkey0, -⟩ := mem_items.mp hmem
      exact (lookup_eq_none_iff hash hwf.1 k2).mp h2 nd0 hnd0 hkey0

/-- C8: count accounting.  A successful insert increments the element count
by exactly one, a successful erase decrements it by exactly one (the count
is then at least one), and the count is zero exactly when the emptiness
check — which compares the list head pointer with the past-last sentinel —
reports true. -/
theorem c8_count {st : Mumap K V} (hwf : WF hash st) (p : K × V) (k : K) :
    ((MUM.insert hash st p).2.1 = true →
      (MUM.insert hash st p).2.2.count = st.count + 1) ∧
    ((MUM.erase hash st k).1 = true →
      1 ≤ st.count ∧ (MUM.erase hash st k).2.count = st.count - 1) ∧
    (st.count = 0 ↔ empty st = true) := by
  obtain ⟨-, hsuccE, -⟩ := erase_spec hash hwf k
  refine ⟨(insert_fields hash st p).1, ?_, empty_iff_count hash hwf⟩
  intro hflag
  obtain ⟨h1, h2, -, -⟩ := hsuccE hflag
  exact ⟨h1, h2⟩

/-- Witness for C2 (amended) on `stA`, which holds key 3. -/
theorem c2_dup_insert_witness :
    (MUM.insert natHash stA ((3 : Nat), (9 : Nat))).2.1 = false ∧
    (MUM.insert natHash stA ((3 : Nat), (9 : Nat))).1 = none ∧
    (MUM.insert natHash stA ((3 : Nat), (9 : Nat))).2.2.count = stA.count := by
  have h := c2_dup_insert natHash wfA ((3 : Nat), (9 : Nat)) (by decide)
  exact ⟨h.1, h.2.1, h.2.2.2⟩

/-- Witness for C1: insert `(5, 11)` into `stA` and erase key 3 from it. -/
theorem c1_round_trip_witness :
    (MUM.insert natHash stA ((5 : Nat), (11 : Nat))).2.1 = true ∧
    lookup natHash (MUM.insert natHash stA ((5 : Nat), (11 : Nat))).2.2 5 = some 11 ∧
    (MUM.erase natHash stA 3).1 = true ∧
    lookup natHash (MUM.erase natHash stA 3).2 3 = none := by
  have h := c1_round_trip natHash wfA ((5 : Nat), (11 : Nat)) 3
  exact ⟨by decide, h.1 (by decide), by decide, h.2 (by decide)⟩

/-- Witness for C3: erasing key 3 leaves the lookup of key 5 unchanged. -/
theorem c3_erase_frame_witness :
    lookup natHash (MUM.erase natHash stA 3).2 5 = lookup natHash stA 5 :=
  c3_erase_frame natHash wfA 3 5 (by decide)

/-- Witness for C8 on `stA`. -/
theorem c8_count_witness :
    (MUM.insert natHash stA ((5 : Nat), (11 : Nat))).2.1 = true ∧
    (MUM.insert natHash stA ((5 : Nat), (11 : Nat))).2.2.count = stA.count + 1 ∧
    (MUM.erase natHash stA 3).1 = true ∧
    (MUM.erase natHash stA 3).2.count = stA.count - 1 ∧
    (stA.count = 0 ↔ empty stA = true) := by
  have h := c8_count natHash wfA ((5 : Nat), (11 : Nat)) 3
  exact ⟨by decide, h.1 (by decide), by decide, (h.2.1 (by decide)).2, h.2.2⟩

/-- Witness for C6 on the reachable one-element container `stA`. -/
theorem c6_key_uniqueness_witness : ((stA.nodes.map Node.key)).Nodup :=
  c6_key_uniqueness natHash
    ⟨true, ReachableI.insert mumapNew false ((3 : Nat), (7 : Nat)) ReachableI.init⟩

/-- Counterexample to C10 as stated: clearing `stA` — a container that has
received an insertion — yields a reachable state whose bucket count is
zero although an insertion happened during the object's lifetime. -/
theorem c10_counterexample :
    ReachableI natHash (MUM.clear stA) true ∧ (MUM.clear stA).size = 0 :=
  ⟨ReachableI.clear stA true
      (ReachableI.insert mumapNew false ((3 : Nat), (7 : Nat)) ReachableI.init),
    rfl⟩

/-- Witness for C10 (amended) on the cleared container. -/
theorem c10_bucket_zero_witness :
    (MUM.clear stA).count = 0 ∧ (MUM.clear stA).nodes = [] :=
  c10_bucket_zero natHash
    ⟨true, ReachableI.clear stA true
      (ReachableI.insert mumapNew false ((3 : Nat), (7 : Nat)) ReachableI.init)⟩
    rfl

end MUM
